import Mathlib

set_option maxHeartbeats 1000000

namespace ShaderPlayground

/-!
Shallow embedding of the dataflow engine of the shader compute playground
(src/graph.js, src/nodes.js, src/app.js, and the WebGL manager).

Node identity: the JavaScript code compares node objects by reference and
stores `node.id` strings in its visited/visiting sets.  Here nodes are keyed
by a natural-number id; the embedding is faithful for graphs whose nodes
carry pairwise distinct ids (which the application guarantees).
-/

/-- `listStarts pat l` decides whether `pat` is an initial segment of `l`. -/
def listStarts : List Char → List Char → Bool
  | [], _ => true
  | _ :: _, [] => false
  | a :: as, b :: bs => a == b && listStarts as bs

/-- `listHas l pat` decides whether `pat` occurs contiguously inside `l`,
mirroring JavaScript's `String.prototype.includes`. -/
def listHas : List Char → List Char → Bool
  | l, pat =>
    if listStarts pat l then true
    else
      match l with
      | [] => false
      | _ :: rest => listHas rest pat

/-- JavaScript `msg.includes(pat)` on strings. -/
def strContains (s pat : String) : Bool :=
  listHas s.toList pat.toList

/-- Characters kept verbatim by the sanitizer regex `[^a-zA-Z0-9_]`
in `TextureBufferNode.setName` / `ShaderNode.setName` (src/nodes.js). -/
def isIdentChar (c : Char) : Bool :=
  c.isAlphanum || c == '_'

/-- Name sanitization of `setName` (src/nodes.js lines 146-157):
replace every character outside `[a-zA-Z0-9_]` by `_`, prefix a leading
digit with `_`, and fall back to `fallback` when the result is empty or
exactly `"_"`. -/
def sanitizeName (fallback : String) (name : String) : String :=
  let s1 := String.mk (name.toList.map (fun c => if isIdentChar c then c else '_'))
  let s2 := if (match s1.toList with | c :: _ => c.isDigit | [] => false)
            then "_" ++ s1 else s1
  if s2 = "" || s2 = "_" then fallback else s2

/-- `TextureBufferNode.setName`: the buffer fallback name is `textureBuffer`. -/
def bufferSetName (name : String) : String :=
  sanitizeName "textureBuffer" name

/-! ## Data model -/

/-- `node.type` in the source: `'shader'` or `'texture-buffer'`. -/
inductive NodeKind where
  | shader
  | textureBuffer
deriving DecidableEq, Repr

/-- A node of the graph.  Fields follow `ShaderNode` / `TextureBufferNode`
(src/nodes.js); UI-only fields (position, DOM element, Monaco editor) are
omitted.  Buffer nodes use `name`/`texture`; shader nodes use
`code`/`lastCode`/`program`/`error`/`outputTexture`/`inputs`. -/
structure GNode where
  id : Nat
  kind : NodeKind
  name : String
  inputs : List String
  code : String
  lastCode : Option String
  program : Option Nat
  progGen : Nat
  error : Option String
  texture : Nat
  outputTexture : Option Nat
deriving DecidableEq, Repr

/-- An edge `{from, fromPort, to, toPort}` (src/graph.js `addEdge`),
with node references replaced by node ids. -/
structure Edge where
  src : Nat
  srcPort : Nat
  dst : Nat
  dstPort : Nat
deriving DecidableEq, Repr

/-- The graph: node list and edge list, in insertion order
(src/graph.js `Graph.nodes`, `Graph.edges`). -/
structure Graph where
  nodes : List GNode
  edges : List Edge
deriving DecidableEq, Repr

/-- `Graph.getEdgesTo(node)` with no port filter (src/graph.js line 45). -/
def getEdgesTo (edges : List Edge) (nid : Nat) : List Edge :=
  edges.filter (fun e => e.dst == nid)

/-- `Graph.getEdgesFrom(node)` with no port filter (src/graph.js line 39). -/
def getEdgesFrom (edges : List Edge) (nid : Nat) : List Edge :=
  edges.filter (fun e => e.src == nid)

/-- Look a node up by id (object identity in the source). -/
def findNode (g : Graph) (nid : Nat) : Option GNode :=
  g.nodes.find? (fun n => n.id == nid)

/-- Replace the node with id `n.id` by `n` (in-place object mutation in
the source). -/
def updateNode (g : Graph) (n : GNode) : Graph :=
  { g with nodes := g.nodes.map (fun m => if m.id == n.id then n else m) }

/-! ## Evaluation order (src/graph.js `getEvaluationOrder`, lines 52-88)

The JavaScript `visit` is recursive with mutable `visited`/`visiting` sets;
here it is written with explicit state and a fuel parameter.  The fuel used
by `orderCore` is proved sufficient below (`visit_some`), which is the
formal content of the termination claim. -/

structure VisitState where
  visiting : List Nat
  visited : List Nat
  result : List Nat
  cycles : List Nat
deriving DecidableEq, Repr

def initVisit : VisitState := ⟨[], [], [], []⟩

/-- Sequentially visit the sources of a list of incoming edges, mirroring
`for (const edge of incomingEdges) visit(edge.from)`. -/
def visitDeps (f : Nat → VisitState → Option VisitState) :
    List Edge → VisitState → Option VisitState
  | [], s => some s
  | e :: es, s =>
    match f e.src s with
    | none => none
    | some s' => visitDeps f es s'

/-- The recursive `visit` closure of `getEvaluationOrder`:
cycle check against `visiting`, skip when `visited`, otherwise push onto
`visiting`, visit all incoming edges' sources, then move to `visited` and
append to `result`. -/
def visit (edges : List Edge) : Nat → Nat → VisitState → Option VisitState
  | 0, _, _ => none
  | fuel + 1, n, s =>
    if n ∈ s.visiting then
      some { s with cycles := s.cycles ++ [n] }
    else if n ∈ s.visited then
      some s
    else
      match visitDeps (fun m t => visit edges fuel m t)
          (getEdgesTo edges n) { s with visiting := n :: s.visiting } with
      | none => none
      | some s2 =>
        some { s2 with
                visiting := s2.visiting.erase n,
                visited := n :: s2.visited,
                result := s2.result ++ [n] }

/-- Fuel that `orderCore` hands to `visit`; proved sufficient below. -/
def orderFuel (nodeIds : List Nat) (edges : List Edge) : Nat :=
  nodeIds.length + edges.length + 1

/-- One iteration of the top-level loop of `getEvaluationOrder`:
`if (!visited.has(node.id)) visit(node)`. -/
def orderStep (edges : List Edge) (fuel : Nat) (acc : Option VisitState) (n : Nat) :
    Option VisitState :=
  match acc with
  | none => none
  | some s => if n ∈ s.visited then some s else visit edges fuel n s

/-- The top-level loop of `getEvaluationOrder`:
`for (const node of this.nodes) if (!visited.has(node.id)) visit(node)`. -/
def orderCore (nodeIds : List Nat) (edges : List Edge) : Option VisitState :=
  nodeIds.foldl (orderStep edges (orderFuel nodeIds edges)) (some initVisit)

/-- `Graph.getEvaluationOrder()`: returns `{ order, cycles }`. -/
def getEvaluationOrder (g : Graph) : Option (List Nat × List Nat) :=
  (orderCore (g.nodes.map (fun n => n.id)) g.edges).map (fun s => (s.result, s.cycles))

/-! ## Unconditional properties of `visit` -/


def Wf (s : VisitState) : Prop :=
  (∀ x, x ∈ s.result ↔ x ∈ s.visited) ∧ s.result.Nodup ∧ (∀ x ∈ s.visiting, x ∉ s.visited)

theorem visitDeps_spec (f : Nat → VisitState → Option VisitState)
    (hf : ∀ m t t', f m t = some t' →
      t'.visiting = t.visiting ∧ (∀ x ∈ t.visited, x ∈ t'.visited) ∧
      (∀ x ∈ t.cycles, x ∈ t'.cycles) ∧ (Wf t → Wf t')) :
    ∀ es s s', visitDeps f es s = some s' →
      s'.visiting = s.visiting ∧ (∀ x ∈ s.visited, x ∈ s'.visited) ∧
      (∀ x ∈ s.cycles, x ∈ s'.cycles) ∧ (Wf s → Wf s') := by
  intro es
  induction es with
  | nil => intro s s' h; simp [visitDeps] at h; subst h; exact ⟨rfl, fun x hx => hx, fun x hx => hx, id⟩
  | cons e rest ih =>
    intro s s' h
    simp only [visitDeps] at h
    cases hf1 : f e.src s with
    | none => rw [hf1] at h; exact absurd h (by simp)
    | some t =>
      rw [hf1] at h
      obtain ⟨h1, h2, h3, h4⟩ := hf _ _ _ hf1
      obtain ⟨g1, g2, g3, g4⟩ := ih t s' h
      exact ⟨g1.trans h1, fun x hx => g2 x (h2 x hx), fun x hx => g3 x (h3 x hx), fun w => g4 (h4 w)⟩

theorem visit_spec (edges : List Edge) :
    ∀ fuel n s s', visit edges fuel n s = some s' →
      s'.visiting = s.visiting ∧ (∀ x ∈ s.visited, x ∈ s'.visited) ∧
      (∀ x ∈ s.cycles, x ∈ s'.cycles) ∧ (Wf s → Wf s') ∧
      (n ∉ s.visiting → n ∈ s'.visited) := by
  intro fuel
  induction fuel with
  | zero => intro n s s' h; simp [visit] at h
  | succ fuel ih =>
    intro n s s' h
    by_cases hv : n ∈ s.visiting
    · simp only [visit, if_pos hv, Option.some.injEq] at h
      subst h
      refine ⟨rfl, fun x hx => hx, fun x hx => List.mem_append_left _ hx, ?_, fun hc => absurd hv hc⟩
      intro ⟨w1, w2, w3⟩; exact ⟨w1, w2, w3⟩
    · by_cases hvd : n ∈ s.visited
      · simp only [visit, if_neg hv, if_pos hvd, Option.some.injEq] at h
        subst h
        exact ⟨rfl, fun x hx => hx, fun x hx => hx, id, fun _ => hvd⟩
      · simp only [visit, if_neg hv, if_neg hvd] at h
        cases hD : visitDeps (fun m t => visit edges fuel m t)
            (getEdgesTo edges n) { s with visiting := n :: s.visiting } with
        | none => rw [hD] at h; exact absurd h (by simp)
        | some s2 =>
          rw [hD] at h
          simp only [Option.some.injEq] at h
          subst h
          have hspec := visitDeps_spec (fun m t => visit edges fuel m t)
            (fun m t t' ht =>
              let r := ih m t t' ht
              ⟨r.1, r.2.1, r.2.2.1, r.2.2.2.1⟩) _ _ _ hD
          obtain ⟨d1, d2, d3, d4⟩ := hspec
          have hvv : s2.visiting = n :: s.visiting := d1
          refine ⟨?_, ?_, ?_, ?_, ?_⟩
          · simp [hvv, List.erase_cons_head]
          · intro x hx; exact List.mem_cons_of_mem _ (d2 x hx)
          · intro x hx; exact d3 x hx
          · intro hw
            have hw1 : Wf { s with visiting := n :: s.visiting } := by
              obtain ⟨w1, w2, w3⟩ := hw
              refine ⟨w1, w2, ?_⟩
              intro x hx
              rcases List.mem_cons.mp hx with rfl | hx'
              · exact hvd
              · exact w3 x hx'
            obtain ⟨w1, w2, w3⟩ := d4 hw1
            have hn2 : n ∉ s2.visited := w3 n (by rw [hvv]; exact List.mem_cons_self _ _)
            have hnr : n ∉ s2.result := fun hc => hn2 ((w1 n).mp hc)
            refine ⟨?_, ?_, ?_⟩
            · intro x
              show x ∈ s2.result ++ [n] ↔ x ∈ n :: s2.visited
              constructor
              · intro hx
                rcases List.mem_append.mp hx with hx | hx
                · exact List.mem_cons_of_mem _ ((w1 x).mp hx)
                · rcases List.mem_singleton.mp hx with rfl
                  exact List.mem_cons_self _ _
              · intro hx
                rcases List.mem_cons.mp hx with rfl | hx
                · exact List.mem_append_right _ (List.mem_singleton_self _)
                · exact List.mem_append_left _ ((w1 x).mpr hx)
            · simpa [List.nodup_append] using ⟨w2, hnr⟩
            · intro x hx
              rw [hvv, List.erase_cons_head] at hx
              intro hc
              rcases List.mem_cons.mp hc with rfl | hc'
              · exact hv hx
              · exact w3 x (by rw [hvv]; exact List.mem_cons_of_mem _ hx) hc'
          · intro _; exact List.mem_cons_self _ _



/-! ## Fuel sufficiency: the recursion terminates -/

/-- All node ids the recursion of `visit` can ever be called on. -/
def cands (nodeIds : List Nat) (edges : List Edge) : List Nat :=
  (nodeIds ++ edges.map (fun e => e.src)).dedup

theorem cands_nodup (nodeIds : List Nat) (edges : List Edge) :
    (cands nodeIds edges).Nodup :=
  List.nodup_dedup _

theorem cands_length_lt (nodeIds : List Nat) (edges : List Edge) :
    (cands nodeIds edges).length < orderFuel nodeIds edges := by
  have h1 : (cands nodeIds edges).length ≤ (nodeIds ++ edges.map (fun e => e.src)).length :=
    (List.dedup_sublist _).length_le
  simp only [List.length_append, List.length_map] at h1
  simp only [orderFuel]
  omega

theorem filter_notmem_cons_length (l : List Nat) (hnd : l.Nodup) (n : Nat) (V : List Nat)
    (hn : n ∈ l) (hnV : n ∉ V) :
    (l.filter (fun x => decide (x ∉ n :: V))).length + 1
      = (l.filter (fun x => decide (x ∉ V))).length := by
  induction l with
  | nil => simp at hn
  | cons a as ih =>
    rcases List.nodup_cons.mp hnd with ⟨hna, hnd'⟩
    rcases List.mem_cons.mp hn with rfl | hn'
    · have h1 : (decide (n ∉ n :: V)) = false := by simp
      have h2 : (decide (n ∉ V)) = true := by simpa using hnV
      simp only [List.filter_cons, h1, h2, if_false, if_true, List.length_cons]
      have : as.filter (fun x => decide (x ∉ n :: V)) = as.filter (fun x => decide (x ∉ V)) := by
        apply List.filter_congr
        intro x hx
        have hxa : x ≠ n := fun hc => hna (hc ▸ hx)
        simp [List.mem_cons, hxa]
      rw [this]
      simp
    · have hne : a ≠ n := fun hc => hna (hc ▸ hn')
      by_cases haV : a ∈ V
      · have h1 : (decide (a ∉ n :: V)) = false := by simp [haV]
        have h2 : (decide (a ∉ V)) = false := by simp [haV]
        simp only [List.filter_cons, h1, h2, if_false]
        exact ih hnd' hn'
      · have h1 : (decide (a ∉ n :: V)) = true := by simp [haV, hne]
        have h2 : (decide (a ∉ V)) = true := by simp [haV]
        simp only [List.filter_cons, h1, h2, if_true, List.length_cons]
        have := ih hnd' hn'
        omega

theorem visitDeps_some (f : Nat → VisitState → Option VisitState)
    (hpres : ∀ m t t', f m t = some t' → t'.visiting = t.visiting) :
    ∀ es (V : List Nat),
      (∀ e ∈ es, ∀ t : VisitState, t.visiting = V → (f e.src t).isSome) →
      ∀ s : VisitState, s.visiting = V → (visitDeps f es s).isSome := by
  intro es
  induction es with
  | nil => intro V _ s _; simp [visitDeps]
  | cons e rest ih =>
    intro V hall s hs
    have h1 : (f e.src s).isSome := hall e (List.mem_cons_self _ _) s hs
    rcases Option.isSome_iff_exists.mp h1 with ⟨t, ht⟩
    simp only [visitDeps, ht]
    exact ih V (fun e' he' => hall e' (List.mem_cons_of_mem _ he'))
      t ((hpres _ _ _ ht).trans hs)

theorem visit_some (nodeIds : List Nat) (edges : List Edge) :
    ∀ fuel n (s : VisitState), n ∈ cands nodeIds edges →
      ((cands nodeIds edges).filter (fun x => decide (x ∉ s.visiting))).length < fuel →
      (visit edges fuel n s).isSome := by
  intro fuel
  induction fuel with
  | zero => intro n s _ hlt; omega
  | succ fuel ih =>
    intro n s hn hlt
    by_cases hv : n ∈ s.visiting
    · simp [visit, hv]
    · by_cases hvd : n ∈ s.visited
      · simp [visit, hv, hvd]
      · have hsome : (visitDeps (fun m t => visit edges fuel m t)
            (getEdgesTo edges n) { s with visiting := n :: s.visiting }).isSome := by
          apply visitDeps_some _ (fun m t t' ht => (visit_spec edges fuel m t t' ht).1)
            _ (n :: s.visiting) _ _ rfl
          intro e he t htv
          apply ih
          · have he' : e ∈ edges := List.mem_of_mem_filter he
            exact List.mem_dedup.mpr (List.mem_append_right _
              (List.mem_map.mpr ⟨e, he', rfl⟩))
          · rw [htv]
            have hlen := filter_notmem_cons_length (cands nodeIds edges)
              (cands_nodup nodeIds edges) n s.visiting hn hv
            omega
        rcases Option.isSome_iff_exists.mp hsome with ⟨s2, hs2⟩
        simp [visit, hv, hvd, hs2]

theorem orderFold_spec (nodeIds : List Nat) (edges : List Edge) (fuel : Nat)
    (hfuel : (cands nodeIds edges).length < fuel) :
    ∀ (ids : List Nat) (s : VisitState),
      (∀ x ∈ ids, x ∈ cands nodeIds edges) → s.visiting = [] → Wf s →
      ∃ s', ids.foldl (orderStep edges fuel) (some s) = some s' ∧
        Wf s' ∧ s'.visiting = [] ∧
        (∀ x ∈ s.visited, x ∈ s'.visited) ∧
        (∀ x ∈ s.cycles, x ∈ s'.cycles) ∧
        (∀ x ∈ ids, x ∈ s'.visited) := by
  intro ids
  induction ids with
  | nil =>
    intro s _ hv hw
    exact ⟨s, rfl, hw, hv, fun x hx => hx, fun x hx => hx, by simp⟩
  | cons n rest ih =>
    intro s hall hv hw
    by_cases hvd : n ∈ s.visited
    · have hstep : orderStep edges fuel (some s) n = some s := by
        simp [orderStep, hvd]
      rcases ih s (fun x hx => hall x (List.mem_cons_of_mem _ hx)) hv hw with
        ⟨s', h1, h2, h3, h4, h5, h6⟩
      refine ⟨s', ?_, h2, h3, h4, h5, ?_⟩
      · simpa [hstep] using h1
      · intro x hx
        rcases List.mem_cons.mp hx with rfl | hx'
        · exact h4 x hvd
        · exact h6 x hx'
    · have hsome : (visit edges fuel n s).isSome := by
        apply visit_some nodeIds edges fuel n s (hall n (List.mem_cons_self _ _))
        rw [hv]
        have : (cands nodeIds edges).filter (fun x => decide (x ∉ ([] : List Nat)))
            = cands nodeIds edges := by
          apply List.filter_eq_self.mpr
          intro x _
          simp
        rw [this]
        exact hfuel
      rcases Option.isSome_iff_exists.mp hsome with ⟨s1, hs1⟩
      obtain ⟨p1, p2, p3, p4, p5⟩ := visit_spec edges fuel n s s1 hs1
      have hstep : orderStep edges fuel (some s) n = some s1 := by
        simp [orderStep, hvd, hs1]
      have hv1 : s1.visiting = [] := p1.trans hv
      rcases ih s1 (fun x hx => hall x (List.mem_cons_of_mem _ hx)) hv1 (p4 hw) with
        ⟨s', h1, h2, h3, h4, h5, h6⟩
      refine ⟨s', ?_, h2, h3, fun x hx => h4 x (p2 x hx), fun x hx => h5 x (p3 x hx), ?_⟩
      · simpa [hstep] using h1
      · intro x hx
        rcases List.mem_cons.mp hx with rfl | hx'
        · exact h4 x (p5 (by rw [hv]; simp))
        · exact h6 x hx'

theorem orderCore_spec (nodeIds : List Nat) (edges : List Edge) :
    ∃ s, orderCore nodeIds edges = some s ∧ Wf s ∧ s.visiting = [] ∧
      (∀ x ∈ nodeIds, x ∈ s.visited) := by
  have hW : Wf initVisit := by
    refine ⟨by simp [initVisit], by simp [initVisit], by simp [initVisit]⟩
  rcases orderFold_spec nodeIds edges (orderFuel nodeIds edges)
      (cands_length_lt nodeIds edges) nodeIds initVisit
      (fun x hx => List.mem_dedup.mpr (List.mem_append_left _ hx)) rfl hW with
    ⟨s, h1, h2, h3, _, _, h6⟩
  exact ⟨s, h1, h2, h3, h6⟩



/-! ## Claims C9 and C10 -/

/-- C9: for every finite graph, including graphs containing cycles and
self-loops, `Graph.getEvaluationOrder` terminates (the fuel granted by
`orderCore` is never exhausted) and the returned order visits each node at
most once (it has no duplicates). -/
theorem evaluationOrder_terminates (g : Graph) :
    ∃ order cycles, getEvaluationOrder g = some (order, cycles) ∧ order.Nodup := by
  rcases orderCore_spec (g.nodes.map (fun n => n.id)) g.edges with ⟨s, h1, ⟨_, hnd, _⟩, _, _⟩
  exact ⟨s.result, s.cycles, by simp [getEvaluationOrder, h1], hnd⟩

/-- C10: for every graph (with pairwise distinct node ids, as the
application guarantees), cyclic or not, the order returned by
`Graph.getEvaluationOrder` contains every node of the graph exactly once. -/
theorem evaluationOrder_complete (g : Graph)
    (hids : (g.nodes.map (fun n => n.id)).Nodup) :
    ∃ order cycles, getEvaluationOrder g = some (order, cycles) ∧
      ∀ nd ∈ g.nodes, order.count nd.id = 1 := by
  rcases orderCore_spec (g.nodes.map (fun n => n.id)) g.edges with
    ⟨s, h1, ⟨hrv, hnd, _⟩, _, hcov⟩
  refine ⟨s.result, s.cycles, by simp [getEvaluationOrder, h1], ?_⟩
  intro nd hnd'
  have hmem : nd.id ∈ s.visited := hcov nd.id (List.mem_map.mpr ⟨nd, hnd', rfl⟩)
  exact List.count_eq_one_of_mem hnd ((hrv nd.id).mpr hmem)

/-- `evaluationOrder_complete` instantiated at a one-node graph with a
self-loop (the node id list is trivially duplicate-free). -/
theorem evaluationOrder_complete_witness :
    ∃ order cycles,
      getEvaluationOrder
        { nodes := [⟨1, NodeKind.shader, "s", [], "c", none, none, 0, none, 0, none⟩],
          edges := [⟨1, 0, 1, 0⟩] } = some (order, cycles) ∧
      ∀ nd ∈ [(⟨1, NodeKind.shader, "s", [], "c", none, none, 0, none, 0, none⟩ : GNode)],
        order.count nd.id = 1 :=
  evaluationOrder_complete
    { nodes := [⟨1, NodeKind.shader, "s", [], "c", none, none, 0, none, 0, none⟩],
      edges := [⟨1, 0, 1, 0⟩] } (by decide)



/-! ## Acyclic graphs: topological correctness of the order (claim C1) -/

/-- One-step edge relation of the graph: there is an edge from `a` to `b`. -/
def EdgeStep (edges : List Edge) (a b : Nat) : Prop :=
  ∃ e ∈ edges, e.src = a ∧ e.dst = b

/-- The graph has no directed cycle (and in particular no self-loop). -/
def Acyclic (edges : List Edge) : Prop :=
  ∀ n, ¬ Relation.TransGen (EdgeStep edges) n n

/-- Precondition relating a `visit` argument to the current recursion
stack: either the call is a top-level one (empty stack) or the visited node
has an edge into the node on top of the stack. -/
def EntryOk (edges : List Edge) (n : Nat) : List Nat → Prop
  | [] => True
  | t :: _ => EdgeStep edges n t

/-- Partial topological-order invariant of the accumulated `result`. -/
def TopoInv (edges : List Edge) (r : List Nat) : Prop :=
  ∀ e ∈ edges, e.dst ∈ r → e.src ∈ r ∧ r.indexOf e.src < r.indexOf e.dst

theorem chain_reach {R : Nat → Nat → Prop} :
    ∀ (l : List Nat) (a : Nat), List.Chain' R (a :: l) →
      ∀ b ∈ a :: l, Relation.ReflTransGen R a b := by
  intro l
  induction l with
  | nil =>
    intro a _ b hb
    rcases List.mem_singleton.mp hb with rfl
    exact Relation.ReflTransGen.refl
  | cons c l ih =>
    intro a hch b hb
    have hac : R a c := (List.chain'_cons.mp hch).1
    have hch' : List.Chain' R (c :: l) := (List.chain'_cons.mp hch).2
    rcases List.mem_cons.mp hb with rfl | hb'
    · exact Relation.ReflTransGen.refl
    · exact Relation.ReflTransGen.head hac (ih c hch' b hb')

/-- A node on the recursion stack that is entered again closes a directed
cycle. -/
theorem stack_cycle {edges : List Edge} {n : Nat} {vl : List Nat}
    (hch : List.Chain' (EdgeStep edges) vl) (hent : EntryOk edges n vl)
    (hmem : n ∈ vl) : Relation.TransGen (EdgeStep edges) n n := by
  cases vl with
  | nil => simp at hmem
  | cons t rest =>
    have hstep : EdgeStep edges n t := hent
    exact Relation.TransGen.head' hstep (chain_reach (t :: rest).tail t hch n hmem)



theorem visit_acyclic (edges : List Edge) (nodeIds : List Nat)
    (hacyc : Acyclic edges)
    (hclosed : ∀ e ∈ edges, e.src ∈ nodeIds ∧ e.dst ∈ nodeIds) :
    ∀ fuel n s s', visit edges fuel n s = some s' →
      Wf s → TopoInv edges s.result → (∀ x ∈ s.visited, x ∈ nodeIds) →
      List.Chain' (EdgeStep edges) s.visiting →
      EntryOk edges n s.visiting → n ∈ nodeIds →
      TopoInv edges s'.result ∧ (∀ x ∈ s'.visited, x ∈ nodeIds) ∧
        s'.cycles = s.cycles := by
  intro fuel
  induction fuel with
  | zero => intro n s s' h; simp [visit] at h
  | succ fuel ih =>
    intro n s s' h hw htop hnid hch hent hn
    by_cases hv : n ∈ s.visiting
    · exact absurd (stack_cycle hch hent hv) (hacyc n)
    · by_cases hvd : n ∈ s.visited
      · simp only [visit, if_neg hv, if_pos hvd, Option.some.injEq] at h
        subst h
        exact ⟨htop, hnid, rfl⟩
      · simp only [visit, if_neg hv, if_neg hvd] at h
        cases hD : visitDeps (fun m t => visit edges fuel m t)
            (getEdgesTo edges n) { s with visiting := n :: s.visiting } with
        | none => rw [hD] at h; exact absurd h (by simp)
        | some s2 =>
          rw [hD] at h
          simp only [Option.some.injEq] at h
          subst h
          have hw1 : Wf { s with visiting := n :: s.visiting } := by
            obtain ⟨w1, w2, w3⟩ := hw
            refine ⟨w1, w2, ?_⟩
            intro x hx
            rcases List.mem_cons.mp hx with rfl | hx'
            · exact hvd
            · exact w3 x hx'
          have hch1 : List.Chain' (EdgeStep edges) (n :: s.visiting) := by
            cases hvl : s.visiting with
            | nil => simp
            | cons t rest =>
              rw [List.chain'_cons]
              constructor
              · rw [hvl] at hent; exact hent
              · rw [← hvl]; exact hch
          have haux : ∀ (es : List Edge), (∀ e ∈ es, e ∈ edges ∧ e.dst = n) →
              ∀ (t t' : VisitState),
                visitDeps (fun m u => visit edges fuel m u) es t = some t' →
                t.visiting = n :: s.visiting → Wf t → TopoInv edges t.result →
                (∀ x ∈ t.visited, x ∈ nodeIds) →
                Wf t' ∧ TopoInv edges t'.result ∧ (∀ x ∈ t'.visited, x ∈ nodeIds) ∧
                  t'.visiting = t.visiting ∧ t'.cycles = t.cycles ∧
                  (∀ x ∈ t.visited, x ∈ t'.visited) ∧
                  (∀ e ∈ es, e.src ∈ t'.visited) := by
            intro es
            induction es with
            | nil =>
              intro _ t t' hfold htv hwt htt hnt
              simp only [visitDeps, Option.some.injEq] at hfold
              subst hfold
              exact ⟨hwt, htt, hnt, rfl, rfl, fun x hx => hx, by simp⟩
            | cons e rest ihes =>
              intro hes t t' hfold htv hwt htt hnt
              simp only [visitDeps] at hfold
              cases hu : visit edges fuel e.src t with
              | none => rw [hu] at hfold; exact absurd hfold (by simp)
              | some u =>
                rw [hu] at hfold
                have he := hes e (List.mem_cons_self _ _)
                have hsrc_nid : e.src ∈ nodeIds := (hclosed e he.1).1
                have hstep_en : EdgeStep edges e.src n := ⟨e, he.1, rfl, he.2⟩
                have hchu : List.Chain' (EdgeStep edges) t.visiting := by
                  rw [htv]; exact hch1
                have hentu : EntryOk edges e.src t.visiting := by
                  rw [htv]; exact hstep_en
                have hmain := ih e.src t u hu hwt htt hnt hchu hentu hsrc_nid
                have hspec := visit_spec edges fuel e.src t u hu
                have hsrc_nin : e.src ∉ t.visiting := by
                  intro hc
                  exact absurd (stack_cycle hchu hentu hc) (hacyc e.src)
                have hsrcu : e.src ∈ u.visited := hspec.2.2.2.2 hsrc_nin
                have hres := ihes (fun e' he' => hes e' (List.mem_cons_of_mem _ he'))
                  u t' hfold (hspec.1.trans htv) (hspec.2.2.2.1 hwt) hmain.1 hmain.2.1
                refine ⟨hres.1, hres.2.1, hres.2.2.1, hres.2.2.2.1.trans hspec.1,
                  hres.2.2.2.2.1.trans hmain.2.2, ?_, ?_⟩
                · intro x hx
                  exact hres.2.2.2.2.2.1 x (hspec.2.1 x hx)
                · intro e' he'
                  rcases List.mem_cons.mp he' with rfl | he''
                  · exact hres.2.2.2.2.2.1 e'.src hsrcu
                  · exact hres.2.2.2.2.2.2 e' he''
          have hes0 : ∀ e ∈ getEdgesTo edges n, e ∈ edges ∧ e.dst = n := by
            intro e he
            have := List.mem_filter.mp he
            exact ⟨this.1, by simpa using this.2⟩
          obtain ⟨hw2, htop2, hnid2, hvv, hcy2, hmono2, hcov2⟩ :=
            haux (getEdgesTo edges n) hes0 _ s2 hD rfl hw1 htop hnid
          have hvv' : s2.visiting = n :: s.visiting := hvv
          have hn_nvis : n ∉ s2.visited :=
            hw2.2.2 n (by rw [hvv']; exact List.mem_cons_self _ _)
          have hn_nr : n ∉ s2.result := fun hc => hn_nvis ((hw2.1 n).mp hc)
          refine ⟨?_, ?_, hcy2⟩
          · intro e he hedst
            rcases List.mem_append.mp hedst with hin | hone
            · obtain ⟨hsrc, hidx⟩ := htop2 e he hin
              refine ⟨List.mem_append_left _ hsrc, ?_⟩
              rw [List.indexOf_append_of_mem hsrc, List.indexOf_append_of_mem hin]
              exact hidx
            · have hdst : e.dst = n := List.mem_singleton.mp hone
              have heT : e ∈ getEdgesTo edges n :=
                List.mem_filter.mpr ⟨he, by simp [hdst]⟩
              have hsrcv : e.src ∈ s2.visited := hcov2 e heT
              have hsrcr : e.src ∈ s2.result := (hw2.1 e.src).mpr hsrcv
              refine ⟨List.mem_append_left _ hsrcr, ?_⟩
              rw [List.indexOf_append_of_mem hsrcr, hdst,
                List.indexOf_append_of_not_mem hn_nr]
              have h1 : s2.result.indexOf e.src < s2.result.length :=
                List.indexOf_lt_length.mpr hsrcr
              have h2 : [n].indexOf n = 0 := List.indexOf_cons_self _ _
              omega
          · intro x hx
            rcases List.mem_cons.mp hx with rfl | hx'
            · exact hn
            · exact hnid2 x hx'



theorem orderFold_acyclic (nodeIds : List Nat) (edges : List Edge) (fuel : Nat)
    (hfuel : (cands nodeIds edges).length < fuel)
    (hacyc : Acyclic edges)
    (hclosed : ∀ e ∈ edges, e.src ∈ nodeIds ∧ e.dst ∈ nodeIds) :
    ∀ (ids : List Nat) (s : VisitState),
      (∀ x ∈ ids, x ∈ cands nodeIds edges ∧ x ∈ nodeIds) →
      s.visiting = [] → Wf s → TopoInv edges s.result →
      (∀ x ∈ s.visited, x ∈ nodeIds) →
      ∃ s', ids.foldl (orderStep edges fuel) (some s) = some s' ∧
        Wf s' ∧ TopoInv edges s'.result ∧ (∀ x ∈ s'.visited, x ∈ nodeIds) ∧
        s'.visiting = [] ∧ s'.cycles = s.cycles ∧
        (∀ x ∈ s.visited, x ∈ s'.visited) ∧ (∀ x ∈ ids, x ∈ s'.visited) := by
  intro ids
  induction ids with
  | nil =>
    intro s _ hv hw ht hn
    exact ⟨s, rfl, hw, ht, hn, hv, rfl, fun x hx => hx, by simp⟩
  | cons m rest ih =>
    intro s hall hv hw ht hn
    by_cases hvd : m ∈ s.visited
    · have hstep : orderStep edges fuel (some s) m = some s := by
        simp [orderStep, hvd]
      rcases ih s (fun x hx => hall x (List.mem_cons_of_mem _ hx)) hv hw ht hn with
        ⟨s', h1, h2, h3, h4, h5, h6, h7, h8⟩
      refine ⟨s', by simpa [hstep] using h1, h2, h3, h4, h5, h6, h7, ?_⟩
      intro x hx
      rcases List.mem_cons.mp hx with rfl | hx'
      · exact h7 x hvd
      · exact h8 x hx'
    · have hm := hall m (List.mem_cons_self _ _)
      have hsome : (visit edges fuel m s).isSome := by
        apply visit_some nodeIds edges fuel m s hm.1
        rw [hv]
        have hfe : (cands nodeIds edges).filter (fun x => decide (x ∉ ([] : List Nat)))
            = cands nodeIds edges :=
          List.filter_eq_self.mpr (fun x _ => by simp)
        rw [hfe]; exact hfuel
      rcases Option.isSome_iff_exists.mp hsome with ⟨s1, hs1⟩
      have hchain : List.Chain' (EdgeStep edges) s.visiting := by
        rw [hv]; exact List.chain'_nil
      have hentry : EntryOk edges m s.visiting := by rw [hv]; trivial
      obtain ⟨q1, q2, q3⟩ := visit_acyclic edges nodeIds hacyc hclosed fuel m s s1 hs1
        hw ht hn hchain hentry hm.2
      obtain ⟨p1, p2, p3, p4, p5⟩ := visit_spec edges fuel m s s1 hs1
      have hstep : orderStep edges fuel (some s) m = some s1 := by
        simp [orderStep, hvd, hs1]
      rcases ih s1 (fun x hx => hall x (List.mem_cons_of_mem _ hx))
          (p1.trans hv) (p4 hw) q1 q2 with
        ⟨s', h1, h2, h3, h4, h5, h6, h7, h8⟩
      refine ⟨s', by simpa [hstep] using h1, h2, h3, h4, h5, h6.trans q3,
        fun x hx => h7 x (p2 x hx), ?_⟩
      intro x hx
      rcases List.mem_cons.mp hx with rfl | hx'
      · exact h7 x (p5 (by rw [hv]; simp))
      · exact h8 x hx'

/-- C1: for every acyclic graph (distinct node ids, edges between graph
nodes), `Graph.getEvaluationOrder` returns an order that is a permutation
of all node ids in which every edge's source appears strictly before its
destination, and the returned list of cycle-entry nodes is empty. -/
theorem evaluationOrder_acyclic_topological (g : Graph)
    (hids : (g.nodes.map (fun n => n.id)).Nodup)
    (hclosed : ∀ e ∈ g.edges, e.src ∈ g.nodes.map (fun n => n.id) ∧
      e.dst ∈ g.nodes.map (fun n => n.id))
    (hacyc : Acyclic g.edges) :
    ∃ order, getEvaluationOrder g = some (order, []) ∧
      order.Perm (g.nodes.map (fun n => n.id)) ∧
      ∀ e ∈ g.edges, order.indexOf e.src < order.indexOf e.dst := by
  set nodeIds := g.nodes.map (fun n => n.id) with hN
  have hW : Wf initVisit := ⟨by simp [initVisit], by simp [initVisit], by simp [initVisit]⟩
  have hT : TopoInv g.edges initVisit.result := by
    intro e _ hd; simp [initVisit] at hd
  rcases orderFold_acyclic nodeIds g.edges (orderFuel nodeIds g.edges)
      (cands_length_lt nodeIds g.edges) hacyc hclosed nodeIds initVisit
      (fun x hx => ⟨List.mem_dedup.mpr (List.mem_append_left _ hx), hx⟩)
      rfl hW hT (by simp [initVisit]) with
    ⟨s, h1, ⟨hrv, hnd, _⟩, htopo, hsub, _, hcy, _, hcov⟩
  have hcy0 : s.cycles = [] := by simpa [initVisit] using hcy
  have hmemiff : ∀ a, a ∈ s.result ↔ a ∈ nodeIds := by
    intro a
    constructor
    · intro ha; exact hsub a ((hrv a).mp ha)
    · intro ha; exact (hrv a).mpr (hcov a ha)
  refine ⟨s.result, ?_, ?_, ?_⟩
  · simp [getEvaluationOrder, orderCore, ← hN, h1, hcy0]
  · exact (List.perm_ext_iff_of_nodup hnd hids).mpr hmemiff
  · intro e he
    have hd : e.dst ∈ s.result := (hmemiff e.dst).mpr (hclosed e he).2
    exact (htopo e he hd).2



/-- A concrete acyclic graph: buffer 1 feeding shader 2. -/
def acyclicDemoGraph : Graph :=
  { nodes := [⟨1, NodeKind.textureBuffer, "a", [], "", none, none, 0, none, 5, none⟩,
              ⟨2, NodeKind.shader, "s", [], "c", none, none, 0, none, 0, none⟩],
    edges := [⟨1, 0, 2, 0⟩] }

theorem acyclicDemoGraph_acyclic : Acyclic acyclicDemoGraph.edges := by
  have hstep : ∀ a b, EdgeStep acyclicDemoGraph.edges a b → a = 1 ∧ b = 2 := by
    rintro a b ⟨e, he, h1, h2⟩
    have he' : e = ⟨1, 0, 2, 0⟩ := by simpa [acyclicDemoGraph] using he
    subst he'
    exact ⟨h1.symm, h2.symm⟩
  have hTG : ∀ a b, Relation.TransGen (EdgeStep acyclicDemoGraph.edges) a b →
      a = 1 ∧ b = 2 := by
    intro a b h
    induction h with
    | single h => exact hstep _ _ h
    | tail _ hbc ih =>
      have h1 := hstep _ _ hbc
      omega
  intro n h
  have := hTG n n h
  omega

/-- Witness for C1 at the concrete graph `acyclicDemoGraph`. -/
theorem evaluationOrder_acyclic_topological_witness :
    ∃ order, getEvaluationOrder acyclicDemoGraph = some (order, []) ∧
      order.Perm (acyclicDemoGraph.nodes.map (fun n => n.id)) ∧
      ∀ e ∈ acyclicDemoGraph.edges, order.indexOf e.src < order.indexOf e.dst :=
  evaluationOrder_acyclic_topological acyclicDemoGraph (by decide) (by decide)
    acyclicDemoGraph_acyclic



/-! ## Claim C6: buffer-node name sanitization -/

theorem sanitize_general (fb : String) (hfb1 : fb.toList ≠ [])
    (hfb2 : ∀ c ∈ fb.toList, isIdentChar c = true)
    (hfb3 : ∀ c cs, fb.toList = c :: cs → c.isDigit = false) (name : String) :
    (sanitizeName fb name).toList ≠ [] ∧
    (∀ c ∈ (sanitizeName fb name).toList, isIdentChar c = true) ∧
    (∀ c cs, (sanitizeName fb name).toList = c :: cs → c.isDigit = false) := by
  have hLident : ∀ c ∈ name.toList.map (fun c => if isIdentChar c then c else '_'),
      isIdentChar c = true := by
    intro c hc
    rcases List.mem_map.mp hc with ⟨o, _, rfl⟩
    by_cases h : isIdentChar o
    · simpa [h] using h
    · simp only [h]
      simp [isIdentChar]
  simp only [sanitizeName]
  split_ifs with h1 h2 h3
  · exact ⟨hfb1, hfb2, hfb3⟩
  · -- leading digit, underscore prepended, not degenerate
    have htl : ("_" ++ String.mk (name.toList.map
        (fun c => if isIdentChar c then c else '_'))).toList
        = '_' :: name.toList.map (fun c => if isIdentChar c then c else '_') := by
      simp [String.toList]
    rw [htl]
    refine ⟨by simp, ?_, ?_⟩
    · intro c hc
      rcases List.mem_cons.mp hc with rfl | hc'
      · decide
      · exact hLident c hc'
    · intro c cs hcc
      have hc : c = '_' := ((List.cons.injEq _ _ _ _ ▸ hcc).1).symm
      rw [hc]
      decide
  · exact ⟨hfb1, hfb2, hfb3⟩
  · -- no leading digit, not degenerate: result is the mapped list itself
    refine ⟨?_, hLident, ?_⟩
    · intro hnil
      have hL0 : name.toList.map (fun c => if isIdentChar c then c else '_') = [] := hnil
      have hval : String.mk (name.toList.map
          (fun c => if isIdentChar c then c else '_')) = "" := by
        rw [hL0]
      simp only [Bool.or_eq_true, decide_eq_true_eq, not_or] at h3
      exact h3.1 hval
    · intro c cs hcc
      have hcc' : name.toList.map (fun c => if isIdentChar c then c else '_')
          = c :: cs := hcc
      rw [hcc'] at h1
      simpa using h1

/-- Counterexample to C6: renaming a buffer to `%%%` does NOT yield the
default fallback name `textureBuffer`; the sanitizer produces `___`
(three underscores), which is neither empty nor exactly `_`, so the
fallback branch of `setName` is not taken. -/
theorem bufferSetName_percent_counterexample :
    bufferSetName "%%%" = "___" ∧ bufferSetName "%%%" ≠ "textureBuffer" :=
  ⟨by decide, by decide⟩

/-- C6 (amended): renaming sanitizes every character outside
`[A-Za-z0-9_]` to `_` and prefixes a leading digit with `_`, but the
default fallback `textureBuffer` is substituted only when the sanitized
result is empty or exactly `_` — not for every degenerate input: `A B`
yields `A_B`, `3x` yields `_3x`, and `%%%` yields `___` (not the
fallback).  The result is always a valid nonempty identifier. -/
theorem bufferSetName_spec :
    (bufferSetName "A B" = "A_B" ∧ bufferSetName "3x" = "_3x" ∧
      bufferSetName "%%%" = "___" ∧ bufferSetName "" = "textureBuffer" ∧
      bufferSetName "_" = "textureBuffer") ∧
    ∀ name : String,
      (bufferSetName name).toList ≠ [] ∧
      (∀ c ∈ (bufferSetName name).toList, isIdentChar c = true) ∧
      (∀ c cs, (bufferSetName name).toList = c :: cs → c.isDigit = false) := by
  refine ⟨⟨by decide, by decide, by decide, by decide, by decide⟩, ?_⟩
  intro name
  have hfb3 : ∀ c cs, ("textureBuffer" : String).toList = c :: cs → c.isDigit = false := by
    intro c cs h
    have h' : ('t' :: "extureBuffer".toList) = c :: cs := h
    have hc : c = 't' := ((List.cons.injEq _ _ _ _ ▸ h').1).symm
    rw [hc]
    decide
  exact sanitize_general "textureBuffer" (by decide) (by decide) hfb3 name



/-! ## Connections (src/app.js `createConnection`, lines 649-691,
and src/graph.js `addEdge`, lines 26-30) -/

/-- `Graph.addEdge`: unconditionally pushes the edge. -/
def graphAddEdge (g : Graph) (e : Edge) : Graph :=
  { g with edges := g.edges ++ [e] }

/-- `while (usedPorts.has(nextPort)) nextPort++`, with explicit fuel
(`createConnection`, src/app.js lines 666-671). -/
def nextFreePort (used : List Nat) : Nat → Nat → Nat
  | 0, p => p
  | fuel + 1, p => if p ∈ used then nextFreePort used fuel (p + 1) else p

/-- `while (toNode.inputs.length <= toPort)` add a default-named input slot
(src/app.js lines 674-677 with `ShaderNode.addInput`, src/nodes.js 804). -/
def extendInputs (inputs : List String) (tp : Nat) : List String :=
  if inputs.length ≤ tp then
    extendInputs (inputs ++ ["input" ++ toString inputs.length]) tp
  else inputs
termination_by tp + 1 - inputs.length
decreasing_by simp; omega

/-- `App.createConnection`: ignore exact duplicates; for shader
destinations move an occupied destination port forward to the next free
one and synthesize the missing input slots; then `Graph.addEdge`. -/
def createConnection (g : Graph) (fromId fromPort toId toPort : Nat) : Graph :=
  if g.edges.any (fun e => e.src == fromId && e.srcPort == fromPort &&
      e.dst == toId && e.dstPort == toPort) then g
  else
    match findNode g toId with
    | some toNode =>
      if toNode.kind == NodeKind.shader then
        let usedPorts := (getEdgesTo g.edges toId).map (fun e => e.dstPort)
        let toPort' := if toPort ∈ usedPorts
          then nextFreePort usedPorts (usedPorts.length + 1) toPort
          else toPort
        let toNode' := { toNode with inputs := extendInputs toNode.inputs toPort' }
        graphAddEdge (updateNode g toNode') ⟨fromId, fromPort, toId, toPort'⟩
      else
        graphAddEdge g ⟨fromId, fromPort, toId, toPort⟩
    | none => graphAddEdge g ⟨fromId, fromPort, toId, toPort⟩



theorem filter_ge_succ_length (l : List Nat) (hnd : l.Nodup) (p : Nat) (hp : p ∈ l) :
    (l.filter (fun x => decide (p + 1 ≤ x))).length + 1
      = (l.filter (fun x => decide (p ≤ x))).length := by
  induction l with
  | nil => simp at hp
  | cons a as ih =>
    rcases List.nodup_cons.mp hnd with ⟨hna, hnd'⟩
    rcases List.mem_cons.mp hp with rfl | hp'
    · have h1 : (decide (p + 1 ≤ p)) = false := by simp
      have h2 : (decide (p ≤ p)) = true := by simp
      simp only [List.filter_cons, h1, h2, if_false, if_true, List.length_cons]
      have : as.filter (fun x => decide (p + 1 ≤ x)) = as.filter (fun x => decide (p ≤ x)) := by
        apply List.filter_congr
        intro x hx
        have hxp : x ≠ p := fun hc => hna (hc ▸ hx)
        simp only [decide_eq_decide]
        omega
      rw [this]
      simp
    · by_cases hap : p + 1 ≤ a
      · have h1 : (decide (p + 1 ≤ a)) = true := by simp [hap]
        have h2 : (decide (p ≤ a)) = true := by simp; omega
        simp only [List.filter_cons, h1, h2, if_true, List.length_cons]
        have := ih hnd' hp'
        omega
      · have hne : a ≠ p := fun hc => hna (hc ▸ hp')
        have h1 : (decide (p + 1 ≤ a)) = false := by simp [hap]
        have h2 : (decide (p ≤ a)) = false := by
          simp only [decide_eq_false_iff_not]
          omega
        simp only [List.filter_cons, h1, h2, if_false]
        exact ih hnd' hp'

theorem nextFreePort_spec (used : List Nat) :
    ∀ fuel p, (used.dedup.filter (fun x => decide (p ≤ x))).length < fuel →
      nextFreePort used fuel p ∉ used ∧ p ≤ nextFreePort used fuel p ∧
      ∀ q, p ≤ q → q < nextFreePort used fuel p → q ∈ used := by
  intro fuel
  induction fuel with
  | zero => intro p h; omega
  | succ fuel ih =>
    intro p hlt
    by_cases hp : p ∈ used
    · have hdec := filter_ge_succ_length used.dedup (List.nodup_dedup _) p
        (List.mem_dedup.mpr hp)
      have hlt' : (used.dedup.filter (fun x => decide (p + 1 ≤ x))).length < fuel := by
        omega
      obtain ⟨h1, h2, h3⟩ := ih (p + 1) hlt'
      simp only [nextFreePort, if_pos hp]
      refine ⟨h1, by omega, ?_⟩
      intro q hq1 hq2
      rcases Nat.eq_or_lt_of_le hq1 with rfl | hq1'
      · exact hp
      · exact h3 q (by omega) hq2
    · simp only [nextFreePort, if_neg hp]
      exact ⟨hp, Nat.le_refl _, fun q hq1 hq2 => absurd (Nat.lt_of_le_of_lt hq1 hq2)
        (Nat.lt_irrefl _)⟩

theorem extendInputs_spec :
    ∀ (k : Nat) (inputs : List String) (tp : Nat), tp + 1 - inputs.length ≤ k →
      ∃ ext, extendInputs inputs tp = inputs ++ ext ∧
        (inputs ++ ext).length = max inputs.length (tp + 1) ∧
        ∀ i, inputs.length ≤ i → i < (inputs ++ ext).length →
          (inputs ++ ext).get? i = some ("input" ++ toString i) := by
  intro k
  induction k with
  | zero =>
    intro inputs tp hk
    have hlen : tp < inputs.length := by omega
    rw [extendInputs, if_neg (by omega)]
    refine ⟨[], by simp, by simp; omega, ?_⟩
    intro i h1 h2
    simp at h2
    omega
  | succ k ih =>
    intro inputs tp hk
    by_cases hle : inputs.length ≤ tp
    · rw [extendInputs, if_pos hle]
      have hk' : tp + 1 - (inputs ++ ["input" ++ toString inputs.length]).length ≤ k := by
        simp
        omega
      obtain ⟨ext, he1, he2, he3⟩ := ih (inputs ++ ["input" ++ toString inputs.length]) tp hk'
      refine ⟨("input" ++ toString inputs.length) :: ext, ?_, ?_, ?_⟩
      · rw [he1]
        simp
      · rw [show inputs ++ ("input" ++ toString inputs.length) :: ext
            = (inputs ++ ["input" ++ toString inputs.length]) ++ ext by simp] at *
        rw [he2]
        simp
        omega
      · intro i h1 h2
        rw [show inputs ++ ("input" ++ toString inputs.length) :: ext
            = (inputs ++ ["input" ++ toString inputs.length]) ++ ext by simp] at *
        by_cases hi : i < inputs.length + 1
        · have hieq : i = inputs.length := by omega
          subst hieq
          rw [List.get?_append (by simp)]
          rw [List.get?_append_right (by simp)]
          simp
        · apply he3
          · simp
            omega
          · exact h2
    · rw [extendInputs, if_neg hle]
      refine ⟨[], by simp, by simp; omega, ?_⟩
      intro i h1 h2
      simp at h2
      omega



theorem findNode_updateNode (nodes : List GNode) (n0 n' : GNode) (nid : Nat)
    (hfind : nodes.find? (fun n => n.id == nid) = some n0) (hid : n'.id = n0.id) :
    (nodes.map (fun m => if m.id == n'.id then n' else m)).find? (fun n => n.id == nid)
      = some n' := by
  have hn0 : n0.id = nid := by simpa using List.find?_some hfind
  induction nodes with
  | nil => simp at hfind
  | cons m rest ih =>
    cases hm : ((m.id == nid) : Bool) with
    | true =>
      have hcond : (m.id == n'.id) = true := by
        simp only [beq_iff_eq] at hm ⊢
        rw [hm, hid, hn0]
      have hpn' : (n'.id == nid) = true := by simp [hid, hn0]
      rw [List.map_cons, if_pos hcond]
      exact List.find?_cons_of_pos _ hpn'
    | false =>
      have hcond : (m.id == n'.id) = false := by
        have hm' : m.id ≠ nid := by simpa using hm
        simp [hid, hn0, hm']
      rw [List.map_cons, if_neg (by simp [hcond]), List.find?_cons_of_neg _ (by simp [hm])]
      rw [List.find?_cons_of_neg _ (by simp [hm])] at hfind
      exact ih hfind

/-! ## Claim C5: connecting to an occupied shader port advances the port -/

/-- C5: a connection request to an occupied destination port of a Program
(shader) Node lands on the lowest unused port index ≥ the requested one,
the input-slot list is extended with default-named slots so that the port
exists, and the pre-existing edges (in particular the one occupying the
requested port) are all left unchanged. -/
theorem createConnection_port_advance (g : Graph) (fromId fromPort toId toPort : Nat)
    (toNode : GNode)
    (hfind : findNode g toId = some toNode)
    (hkind : toNode.kind = NodeKind.shader)
    (hocc : toPort ∈ (getEdgesTo g.edges toId).map (fun e => e.dstPort))
    (hnodup : (⟨fromId, fromPort, toId, toPort⟩ : Edge) ∉ g.edges) :
    ∃ p' ext,
      (createConnection g fromId fromPort toId toPort).edges
        = g.edges ++ [⟨fromId, fromPort, toId, p'⟩] ∧
      toPort < p' ∧
      p' ∉ (getEdgesTo g.edges toId).map (fun e => e.dstPort) ∧
      (∀ q, toPort ≤ q → q < p' →
        q ∈ (getEdgesTo g.edges toId).map (fun e => e.dstPort)) ∧
      findNode (createConnection g fromId fromPort toId toPort) toId
        = some { toNode with inputs := toNode.inputs ++ ext } ∧
      (toNode.inputs ++ ext).length = max toNode.inputs.length (p' + 1) ∧
      (∀ i, toNode.inputs.length ≤ i → i < (toNode.inputs ++ ext).length →
        (toNode.inputs ++ ext).get? i = some ("input" ++ toString i)) := by
  have hany : (g.edges.any (fun e => e.src == fromId && e.srcPort == fromPort &&
      e.dst == toId && e.dstPort == toPort)) = false := by
    rw [List.any_eq_false]
    intro e he hc
    simp only [Bool.and_eq_true, beq_iff_eq] at hc
    apply hnodup
    have he' : e = ⟨fromId, fromPort, toId, toPort⟩ := by
      cases e
      simp_all
    rw [← he']
    exact he
  set usedPorts := (getEdgesTo g.edges toId).map (fun e => e.dstPort) with hU
  have hfuel : (usedPorts.dedup.filter (fun x => decide (toPort ≤ x))).length
      < usedPorts.length + 1 := by
    have h1 : (usedPorts.dedup.filter (fun x => decide (toPort ≤ x))).length
        ≤ usedPorts.dedup.length := List.length_filter_le _ _
    have h2 : usedPorts.dedup.length ≤ usedPorts.length :=
      (List.dedup_sublist _).length_le
    omega
  obtain ⟨q1, q2, q3⟩ := nextFreePort_spec usedPorts (usedPorts.length + 1) toPort hfuel
  set p' := nextFreePort usedPorts (usedPorts.length + 1) toPort with hp'
  obtain ⟨ext, he1, he2, he3⟩ := extendInputs_spec (p' + 1) toNode.inputs p' (by omega)
  have hkindb : (toNode.kind == NodeKind.shader) = true := by simp [hkind]
  have hstep : createConnection g fromId fromPort toId toPort
      = graphAddEdge (updateNode g { toNode with inputs := extendInputs toNode.inputs p' })
          ⟨fromId, fromPort, toId, p'⟩ := by
    simp only [createConnection, hany, Bool.false_eq_true, if_false, hfind, hkindb,
      if_true, ← hU, hocc, ← hp']
  refine ⟨p', ext, ?_, ?_, q1, q3, ?_, ?_, he3⟩
  · rw [hstep]
    rfl
  · rcases Nat.eq_or_lt_of_le q2 with heq | hlt
    · exact absurd (heq ▸ hocc) q1
    · exact hlt
  · rw [hstep]
    show (updateNode g { toNode with inputs := extendInputs toNode.inputs p' }).nodes.find?
        (fun n => n.id == toId) = _
    rw [he1]
    exact findNode_updateNode g.nodes toNode { toNode with inputs := toNode.inputs ++ ext }
      toId hfind rfl
  · exact he2

/-! ## Claim C8: exact duplicate edges are ignored -/

/-- C8: requesting a connection whose exact
`(src, srcPort, dst, dstPort)` tuple already exists leaves the graph
(and in particular its edge list) unchanged. -/
theorem createConnection_duplicate_ignored (g : Graph)
    (fromId fromPort toId toPort : Nat)
    (hdup : (⟨fromId, fromPort, toId, toPort⟩ : Edge) ∈ g.edges) :
    createConnection g fromId fromPort toId toPort = g ∧
    (createConnection g fromId fromPort toId toPort).edges = g.edges := by
  have hany : (g.edges.any (fun e => e.src == fromId && e.srcPort == fromPort &&
      e.dst == toId && e.dstPort == toPort)) = true :=
    List.any_eq_true.mpr ⟨⟨fromId, fromPort, toId, toPort⟩, hdup, by simp⟩
  have h : createConnection g fromId fromPort toId toPort = g := by
    simp only [createConnection, hany, if_true]
  exact ⟨h, by rw [h]⟩

/-- Witness for C8 at a concrete graph that already contains the edge. -/
theorem createConnection_duplicate_ignored_witness :
    createConnection acyclicDemoGraph 1 0 2 0 = acyclicDemoGraph ∧
    (createConnection acyclicDemoGraph 1 0 2 0).edges = acyclicDemoGraph.edges :=
  createConnection_duplicate_ignored acyclicDemoGraph 1 0 2 0 (by decide)

/-- Concrete graph for the C5 witness: buffers 1 and 3, shader 2 whose
input port 0 is already occupied by an edge from buffer 1. -/
def connDemoGraph : Graph :=
  { nodes := [⟨1, NodeKind.textureBuffer, "a", [], "", none, none, 0, none, 5, none⟩,
              ⟨2, NodeKind.shader, "s", ["input0"], "c", none, none, 0, none, 0, none⟩,
              ⟨3, NodeKind.textureBuffer, "b", [], "", none, none, 0, none, 6, none⟩],
    edges := [⟨1, 0, 2, 0⟩] }

/-- Witness for C5: connecting buffer 3 to the occupied port 0 of
shader 2 in `connDemoGraph`. -/
theorem createConnection_port_advance_witness :
    ∃ p' ext,
      (createConnection connDemoGraph 3 0 2 0).edges
        = connDemoGraph.edges ++ [⟨3, 0, 2, p'⟩] ∧
      0 < p' ∧
      p' ∉ (getEdgesTo connDemoGraph.edges 2).map (fun e => e.dstPort) ∧
      (∀ q, 0 ≤ q → q < p' →
        q ∈ (getEdgesTo connDemoGraph.edges 2).map (fun e => e.dstPort)) ∧
      findNode (createConnection connDemoGraph 3 0 2 0) 2
        = some { (⟨2, NodeKind.shader, "s", ["input0"], "c", none, none, 0, none, 0,
            none⟩ : GNode) with inputs := ["input0"] ++ ext } ∧
      (["input0"] ++ ext).length = max 1 (p' + 1) ∧
      (∀ i, 1 ≤ i → i < (["input0"] ++ ext).length →
        (["input0"] ++ ext).get? i = some ("input" ++ toString i)) := by
  exact createConnection_port_advance connDemoGraph 3 0 2 0
    ⟨2, NodeKind.shader, "s", ["input0"], "c", none, none, 0, none, 0, none⟩
    (by decide) (by decide) (by decide) (by decide)



/-! ## Shader source assembly (src/nodes.js `getFullShaderCode`, lines 947-993) -/

/-- Insertion sort modelling JavaScript's numeric `sort((a, b) => a - b)`. -/
def insertSorted (x : Nat) : List Nat → List Nat
  | [] => [x]
  | y :: ys => if x ≤ y then x :: y :: ys else y :: insertSorted x ys

def sortNats : List Nat → List Nat
  | [] => []
  | x :: xs => insertSorted x (sortNats xs)

/-- The connected destination ports of a shader node, deduplicated and
sorted ascending (`Array.from(connectedPorts).sort((a, b) => a - b)`). -/
def sortedPorts (edges : List Edge) (nid : Nat) : List Nat :=
  sortNats (((getEdgesTo edges nid).map (fun e => e.dstPort)).dedup)

/-- The uniform name chosen for a destination port: the buffer's sanitized
name when the edge's source is a texture buffer, else the positional
`inputN` name.  The last edge writing the port wins, mirroring repeated
assignment to `inputNames[toPort]`. -/
def inputNameFor (g : Graph) (nid port : Nat) : String :=
  match ((getEdgesTo g.edges nid).filter (fun e => e.dstPort == port)).getLast? with
  | none => "input" ++ toString port
  | some e =>
    match findNode g e.src with
    | some sn =>
      if sn.kind == NodeKind.textureBuffer then sn.name else "input" ++ toString port
    | none => "input" ++ toString port

/-- The `uniform sampler2D ...;` block, one declaration per connected port
in ascending port order, empty when there are no connections. -/
def inputDeclarations (g : Graph) (nid : Nat) : String :=
  let ps := sortedPorts g.edges nid
  if ps.isEmpty then ""
  else
    String.intercalate "\n"
      (ps.map (fun p => "uniform sampler2D " ++ inputNameFor g nid p ++ ";")) ++ "\n"

/-- `ShaderNode.getFullShaderCode`: header (version/precision/uniforms/
varyings) + user body + fixed `main` trailer. -/
def getFullShaderCode (g : Graph) (n : GNode) : String :=
  "#version 300 es\nprecision mediump float;\n" ++ inputDeclarations g n.id
    ++ "in vec2 v_texCoord;\nout vec4 fragColor;\n\n"
    ++ n.code
    ++ "\nvoid main() \x7b\n    fragColor = compute();\n\x7d\n"

/-! ## Shader evaluation (src/nodes.js `ShaderNode.evaluate`, lines 839-928) -/

/-- Observable GPU-side events of one evaluation pass. -/
inductive Ev where
  | process (nid : Nat)
  | deleteProgram (nid h : Nat)
  | compile (nid : Nat) (src : String) (ok : Bool)
  | render (nid prog target : Nat)
  | copy (nid srcTex : Nat)
deriving DecidableEq, Repr

/-- The environment's answer to `WebGLManager.createProgram` for a given
node and fragment source: `none` is success, `some (isLink, log)` a
compile/link failure with its info log. -/
def CompileOracle : Type := Nat → String → Option (Bool × String)

/-- The message of the error thrown by `createProgram`
(src/unnamed/part_000 lines 84 and 103). -/
def throwMsg : Bool × String → String
  | (isLink, log) =>
    (if isLink then "Program linking error: " else "Shader compilation error: ") ++ log

def isBufferNode (g : Graph) (nid : Nat) : Bool :=
  match findNode g nid with
  | some nd => nd.kind == NodeKind.textureBuffer
  | none => false

def bufferTexture (g : Graph) (nid : Nat) : Nat :=
  match findNode g nid with
  | some nd => nd.texture
  | none => 0

/-- Destination-texture resolution of `ShaderNode.evaluate` (lines
867-887): the first outgoing texture-buffer target's texture, else the
node's own output texture, allocated on first use. -/
def resolveTarget (g : Graph) (n : GNode) : GNode × Nat :=
  match (getEdgesFrom g.edges n.id).find? (fun e => isBufferNode g e.dst) with
  | some e => (n, bufferTexture g e.dst)
  | none =>
    match n.outputTexture with
    | some t => (n, t)
    | none => ({ n with outputTexture := some (1000000 + n.id) }, 1000000 + n.id)

/-- The `try` block of `ShaderNode.evaluate` (lines 889-921): recompile
when there is no program or the body text changed since the last
successful compile — deleting the previous program first — then render;
a compile failure sets the error state and is re-thrown. -/
def shaderEvalTry (co : CompileOracle) (g : Graph) (n : GNode) (target : Nat) :
    (GNode × List Ev) ⊕ (String × GNode × List Ev) :=
  let fullCode := getFullShaderCode g n
  if n.program.isNone || !(n.lastCode == some n.code) then
    let delEvs := match n.program with
      | some p => [Ev.deleteProgram n.id p]
      | none => []
    match co n.id fullCode with
    | none =>
      Sum.inl ({ n with program := some n.progGen, progGen := n.progGen + 1,
                        lastCode := some n.code, error := none },
        delEvs ++ [Ev.compile n.id fullCode true, Ev.render n.id n.progGen target])
    | some err =>
      let msg := throwMsg err
      Sum.inr (msg, { n with error := some msg },
        delEvs ++ [Ev.compile n.id fullCode false])
  else
    match n.program with
    | some p => Sum.inl (n, [Ev.render n.id p target])
    | none => Sum.inl (n, [])

/-- `ShaderNode.evaluate`: early return on empty body, target resolution,
then the `try` block with its `catch` (lines 922-927), which swallows
compile/link errors (already shown) and shows any other message. -/
def shaderEvaluate (co : CompileOracle) (g : Graph) (n : GNode) : GNode × List Ev :=
  if n.code = "" then (n, [])
  else
    let r := resolveTarget g n
    match shaderEvalTry co g r.1 r.2 with
    | Sum.inl res => res
    | Sum.inr (msg, n2, evs) =>
      if strContains msg "Shader compilation" || strContains msg "Program linking" then
        (n2, evs)
      else
        ({ n2 with error := some msg }, evs)

/-- `ShaderNode.getOutputTexture(port)` (lines 930-945): the texture of a
directly connected downstream buffer on that port, else the node's own
output texture (possibly `null`). -/
def shaderGetOutputTexture (g : Graph) (srcId port : Nat) : Option Nat :=
  match (getEdgesFrom g.edges srcId).find?
      (fun e => e.srcPort == port && isBufferNode g e.dst) with
  | some e => some (bufferTexture g e.dst)
  | none =>
    match findNode g srcId with
    | some sn => sn.outputTexture
    | none => none

/-- The source texture feeding a buffer's input edge
(`Graph.updateTextureBufferInput`, src/graph.js lines 168-186). -/
def srcTexOf (g : Graph) (e : Edge) : Option Nat :=
  match findNode g e.src with
  | some sn =>
    match sn.kind with
    | NodeKind.textureBuffer => some sn.texture
    | NodeKind.shader => shaderGetOutputTexture g e.src e.srcPort
  | none => none

/-- Copy events a texture buffer performs when pulling its port-0 inputs
(`setInputTexture` renders the source into the buffer's texture). -/
def bufferInputEvents (g : Graph) (nid : Nat) : List Ev :=
  ((getEdgesTo g.edges nid).filter (fun e => e.dstPort == 0)).filterMap (fun e =>
    match srcTexOf g e with
    | some t => some (Ev.copy nid t)
    | none => none)

/-- Dispatch of one node inside an evaluation pass
(`Graph.evaluate`, src/graph.js lines 95-116 and 148-164). -/
def evalNodePass (co : CompileOracle) (g : Graph) (nid : Nat) : Graph × List Ev :=
  match findNode g nid with
  | none => (g, [Ev.process nid])
  | some n =>
    match n.kind with
    | NodeKind.shader =>
      let r := shaderEvaluate co g n
      (updateNode g r.1, Ev.process nid :: r.2)
    | NodeKind.textureBuffer =>
      (g, Ev.process nid :: bufferInputEvents g nid)

/-- One pass over a list of node ids, threading the graph and appending
events. -/
def runPass (co : CompileOracle) (g : Graph) (evs : List Ev) (ids : List Nat) :
    Graph × List Ev :=
  ids.foldl (fun acc nid =>
    let r := evalNodePass co acc.1 nid
    (r.1, acc.2 ++ r.2)) (g, evs)

/-! ## Cycle expansion (src/graph.js `evaluate`, lines 119-145) -/

/-- JavaScript `Set.add`: append if absent (insertion order kept). -/
def addSet (l : List Nat) (x : Nat) : List Nat :=
  if x ∈ l then l else l ++ [x]

/-- The neighbours `findCycleNodes` recurses into from `nd`: outgoing
targets whose incoming edges include one from `nd` or from a recorded
cycle entry, then incoming sources symmetrically. -/
def cycleTargets (edges : List Edge) (cyclesL : List Nat) (nd : Nat) : List Nat :=
  ((getEdgesFrom edges nd).filter (fun e =>
      (getEdgesTo edges e.dst).any (fun e2 => e2.src == nd || cyclesL.contains e2.src))).map
    (fun e => e.dst)
  ++ ((getEdgesTo edges nd).filter (fun e =>
      (getEdgesFrom edges e.src).any (fun e2 => e2.dst == nd || cyclesL.contains e2.dst))).map
    (fun e => e.src)

/-- Sequential recursion over a target list with an option-propagating
step (the two `for` loops inside `findCycleNodes`). -/
def fcnStep (f : Nat → (List Nat × List Nat) → Option (List Nat × List Nat)) :
    List Nat → (List Nat × List Nat) → Option (List Nat × List Nat)
  | [], st => some st
  | x :: xs, st =>
    match f x st with
    | none => none
    | some st' => fcnStep f xs st'

/-- The recursive `findCycleNodes` closure with explicit fuel: state is
`(visited, cycleNodes)`. -/
def findCycleNodes (edges : List Edge) (cyclesL : List Nat) :
    Nat → Nat → (List Nat × List Nat) → Option (List Nat × List Nat)
  | 0, _, _ => none
  | fuel + 1, nd, st =>
    if nd ∈ st.1 then some st
    else
      fcnStep (fun m st' => findCycleNodes edges cyclesL fuel m st')
        (cycleTargets edges cyclesL nd) (nd :: st.1, addSet st.2 nd)

/-- Fuel granted to `findCycleNodes`; proved sufficient below. -/
def cycleFuel (nodeIds : List Nat) (edges : List Edge) : Nat :=
  nodeIds.length + 2 * edges.length + 2

/-- The loop `for (const cycleNode of cycles)`: add the entry to the set,
then expand it with a fresh per-entry `visited` set. -/
def cycleMembers (nodeIds : List Nat) (edges : List Edge) (cyclesL : List Nat) :
    Option (List Nat) :=
  cyclesL.foldl (fun acc c =>
    match acc with
    | none => none
    | some cyc =>
      match findCycleNodes edges cyclesL (cycleFuel nodeIds edges) c
          ([], addSet cyc c) with
      | none => none
      | some st => some st.2) (some [])

/-- `Graph.evaluate`: ordered pass over the topological order, then one
extra pass over the expanded cycle members when cycles were detected. -/
def graphEvaluate (co : CompileOracle) (g : Graph) : Option (Graph × List Ev) :=
  match getEvaluationOrder g with
  | none => none
  | some oc =>
    let r1 := runPass co g [] oc.1
    if oc.2.isEmpty then some r1
    else
      match cycleMembers (g.nodes.map (fun n => n.id)) g.edges oc.2 with
      | none => none
      | some members => some (runPass co r1.1 r1.2 members)



/-! ## Event projections -/

def isCompileEv : Ev → Bool
  | Ev.compile _ _ _ => true
  | _ => false

def isRenderEv : Ev → Bool
  | Ev.render _ _ _ => true
  | _ => false

def compileEvents (evs : List Ev) : List Ev := evs.filter isCompileEv

def renderEvents (evs : List Ev) : List Ev := evs.filter isRenderEv

/-- The node an event belongs to. -/
def evNode : Ev → Nat
  | Ev.process n => n
  | Ev.deleteProgram n _ => n
  | Ev.compile n _ _ => n
  | Ev.render n _ _ => n
  | Ev.copy n _ => n

def evsOf (nid : Nat) (evs : List Ev) : List Ev :=
  evs.filter (fun e => evNode e == nid)

/-! ## Substring facts about thrown compile errors -/

theorem listStarts_self_append (p rest : List Char) :
    listStarts p (p ++ rest) = true := by
  induction p with
  | nil => rfl
  | cons a as ih => simp [listStarts, ih]

theorem listHas_of_starts (l pat : List Char) (h : listStarts pat l = true) :
    listHas l pat = true := by
  rw [listHas.eq_def]
  simp [h]

/-- Every message thrown by `createProgram` passes the
`includes('Shader compilation') || includes('Program linking')` test of
the `catch` clause in `ShaderNode.evaluate`. -/
theorem throwMsg_contains (e : Bool × String) :
    (strContains (throwMsg e) "Shader compilation"
      || strContains (throwMsg e) "Program linking") = true := by
  rcases e with ⟨isLink, log⟩
  cases isLink with
  | false =>
    have h0 : ("Shader compilation error: " : String).data
        = ("Shader compilation" : String).data ++ (" error: " : String).data := by decide
    have h1 : (throwMsg (false, log)).toList
        = ("Shader compilation" : String).toList
          ++ ((" error: " : String).toList ++ log.toList) := by
      show (("Shader compilation error: " ++ log) : String).data = _
      rw [String.data_append, h0, List.append_assoc]
      rfl
    apply Bool.or_eq_true_iff.mpr
    left
    rw [strContains, h1]
    exact listHas_of_starts _ _ (listStarts_self_append _ _)
  | true =>
    have h0 : ("Program linking error: " : String).data
        = ("Program linking" : String).data ++ (" error: " : String).data := by decide
    have h1 : (throwMsg (true, log)).toList
        = ("Program linking" : String).toList
          ++ ((" error: " : String).toList ++ log.toList) := by
      show (("Program linking error: " ++ log) : String).data = _
      rw [String.data_append, h0, List.append_assoc]
      rfl
    apply Bool.or_eq_true_iff.mpr
    right
    rw [strContains, h1]
    exact listHas_of_starts _ _ (listStarts_self_append _ _)

/-! ## Claim C2: recompilation gating -/

/-- The node part of `resolveTarget` only ever touches `outputTexture`. -/
theorem resolveTarget_eq (g : Graph) (n : GNode) :
    ∃ ot, (resolveTarget g n).1 = { n with outputTexture := ot } := by
  rw [resolveTarget]
  cases (getEdgesFrom g.edges n.id).find? (fun e => isBufferNode g e.dst) with
  | some e => exact ⟨n.outputTexture, rfl⟩
  | none =>
    cases h : n.outputTexture with
    | some t =>
      refine ⟨some t, ?_⟩
      show n = _
      rw [← h]
    | none => exact ⟨some (1000000 + n.id), rfl⟩

/-- C2 (amended): during evaluation a Program Node issues a compilation
call exactly when its body is nonempty and either no program exists yet or
the body text differs from the last successfully-compiled body
(`this.lastCode !== this.code`); the assembled header plays no role in the
gate, and when no compilation happens the compiled program identity is
preserved.  At most one compilation call happens per evaluation. -/
theorem shaderEvaluate_compile_gate (co : CompileOracle) (g : Graph) (n : GNode) :
    ((compileEvents (shaderEvaluate co g n).2).length
        = if n.code ≠ "" ∧ (n.program = none ∨ n.lastCode ≠ some n.code) then 1 else 0) ∧
    (¬(n.code ≠ "" ∧ (n.program = none ∨ n.lastCode ≠ some n.code)) →
      (shaderEvaluate co g n).1.program = n.program) := by
  by_cases hc : n.code = ""
  · simp [shaderEvaluate, hc, compileEvents]
  · obtain ⟨ot, hrt⟩ := resolveTarget_eq g n
    by_cases hgate : n.program = none ∨ n.lastCode ≠ some n.code
    · have hcond : ((resolveTarget g n).1.program.isNone
          || !((resolveTarget g n).1.lastCode == some (resolveTarget g n).1.code)) = true := by
        rw [hrt]
        rcases hgate with h | h
        · simp [h]
        · simp [h]
      have hif : ¬(n.code ≠ "" ∧ (n.program = none ∨ n.lastCode ≠ some n.code)) = False := by
        simp [hc, hgate]
      rw [shaderEvaluate, if_neg hc]
      constructor
      · rw [if_pos ⟨hc, hgate⟩]
        simp only [shaderEvalTry]
        rw [if_pos (show ((resolveTarget g n).1.program.isNone
          || !((resolveTarget g n).1.lastCode == some (resolveTarget g n).1.code)) = true
          from hcond)]
        cases hor : co (resolveTarget g n).1.id (getFullShaderCode g (resolveTarget g n).1) with
        | none =>
          cases hp : (resolveTarget g n).1.program with
          | none => simp [hp, compileEvents, List.filter_append, isCompileEv]
          | some p => simp [hp, compileEvents, List.filter_append, isCompileEv]
        | some err =>
          have hct := throwMsg_contains err
          cases hp : (resolveTarget g n).1.program with
          | none => simp [hp, hct, compileEvents, List.filter_append, isCompileEv]
          | some p => simp [hp, hct, compileEvents, List.filter_append, isCompileEv]
      · intro hcon
        exact absurd ⟨hc, hgate⟩ hcon
    · push_neg at hgate
      obtain ⟨p, hp⟩ := Option.ne_none_iff_exists'.mp hgate.1
      have hcond : ((resolveTarget g n).1.program.isNone
          || !((resolveTarget g n).1.lastCode == some (resolveTarget g n).1.code)) = false := by
        rw [hrt]
        simp [hp, hgate.2]
      rw [shaderEvaluate, if_neg hc]
      simp only [shaderEvalTry]
      rw [if_neg (show ¬((resolveTarget g n).1.program.isNone
          || !((resolveTarget g n).1.lastCode == some (resolveTarget g n).1.code)) = true
          by rw [hcond]; simp)]
      have hp' : (resolveTarget g n).1.program = some p := by rw [hrt]; exact hp
      rw [hp']
      constructor
      · rw [if_neg (by simp [hc, hgate.1, hgate.2])]
        simp [compileEvents, isCompileEv]
      · intro _
        rw [hrt]



/-- Concrete C2 counterexample data: buffer `texA` (id 1) and a shader
(id 2) with a fixed body, first evaluated without, then with, an inbound
connection (which changes only the assembled header). -/
def c2Buffer : GNode :=
  ⟨1, NodeKind.textureBuffer, "texA", [], "", none, none, 0, none, 11, none⟩

def c2Shader : GNode :=
  ⟨2, NodeKind.shader, "s", [], "vec4 compute();", none, none, 0, none, 0, none⟩

def c2G1 : Graph := { nodes := [c2Buffer, c2Shader], edges := [] }

def c2G2 : Graph := { nodes := [c2Buffer, c2Shader], edges := [⟨1, 0, 2, 0⟩] }

/-- An environment in which every compilation succeeds. -/
def alwaysOk : CompileOracle := fun _ _ => none

def c2AfterFirst : GNode := (shaderEvaluate alwaysOk c2G1 c2Shader).1

/-- Counterexample to C2: the first evaluation compiles the assembled
source of the unconnected graph; adding the connection changes the
assembled source (header gains `uniform sampler2D texA;`), yet the next
evaluation performs NO compilation call and keeps the same program,
because `ShaderNode.evaluate` gates recompilation on
`this.lastCode !== this.code` (body text only), not on the full
assembled source. -/
theorem shaderRecompile_header_counterexample :
    compileEvents (shaderEvaluate alwaysOk c2G1 c2Shader).2
      = [Ev.compile 2 (getFullShaderCode c2G1 c2Shader) true] ∧
    getFullShaderCode c2G2 c2AfterFirst ≠ getFullShaderCode c2G1 c2Shader ∧
    compileEvents (shaderEvaluate alwaysOk c2G2 c2AfterFirst).2 = [] ∧
    (shaderEvaluate alwaysOk c2G2 c2AfterFirst).1.program = c2AfterFirst.program ∧
    c2AfterFirst.program = some 0 := by
  refine ⟨by decide, by decide, by decide, by decide, by decide⟩

/-! ## Claim C7: behaviour on compilation failure -/

/-- C7 (amended): when compilation of the assembled source fails during
evaluation, the thrown compiler message is captured as the node's error
state, execution is skipped (no render event), and the `program` field
still holds the old handle — but the previously-compiled program object
(if any) was already destroyed: `evaluate` calls `deleteProgram` on it
before attempting the new compile. -/
theorem shaderEvaluate_compile_failure (co : CompileOracle) (g : Graph) (n : GNode)
    (err : Bool × String)
    (hcode : n.code ≠ "")
    (hneed : n.program = none ∨ n.lastCode ≠ some n.code)
    (hfail : co n.id (getFullShaderCode g (resolveTarget g n).1) = some err) :
    (shaderEvaluate co g n).1.error = some (throwMsg err) ∧
    renderEvents (shaderEvaluate co g n).2 = [] ∧
    (shaderEvaluate co g n).1.program = n.program ∧
    (shaderEvaluate co g n).1.lastCode = n.lastCode ∧
    (∀ p, n.program = some p → Ev.deleteProgram n.id p ∈ (shaderEvaluate co g n).2) := by
  obtain ⟨ot, hrt⟩ := resolveTarget_eq g n
  have hcond : ((resolveTarget g n).1.program.isNone
      || !((resolveTarget g n).1.lastCode == some (resolveTarget g n).1.code)) = true := by
    rw [hrt]
    rcases hneed with h | h
    · simp [h]
    · simp [h]
  have hid : (resolveTarget g n).1.id = n.id := by rw [hrt]
  have hfail' : co (resolveTarget g n).1.id
      (getFullShaderCode g (resolveTarget g n).1) = some err := by
    rw [hid]
    exact hfail
  rw [shaderEvaluate, if_neg hcode]
  simp only [shaderEvalTry]
  rw [if_pos (show ((resolveTarget g n).1.program.isNone
      || !((resolveTarget g n).1.lastCode == some (resolveTarget g n).1.code)) = true
      from hcond)]
  rw [hfail']
  have hct := throwMsg_contains err
  cases hp : (resolveTarget g n).1.program with
  | none =>
    have hpn : n.program = none := by rw [hrt] at hp; exact hp
    refine ⟨by simp [hct], by simp [hct, renderEvents, isRenderEv], ?_, ?_, ?_⟩
    · simp [hct, hpn]
      try rw [hrt]
    · simp [hct]
      try rw [hrt]
    · intro p hpc
      rw [hpn] at hpc
      exact absurd hpc (by simp)
  | some q =>
    have hpq : n.program = some q := by rw [hrt] at hp; exact hp
    refine ⟨by simp [hct], by simp [hct, renderEvents, isRenderEv], ?_, ?_, ?_⟩
    · simp [hct, hpq]
      try rw [hrt]
    · simp [hct]
      try rw [hrt]
    · intro p hpc
      have : p = q := by rw [hpq] at hpc; exact (Option.some.inj hpc).symm
      subst this
      simp [hct, hid]

/-- Concrete C7 counterexample data: a shader (id 2) holding a compiled
program (handle 7) whose body changed since the last compile, in an
environment where compilation now fails. -/
def c7Shader : GNode :=
  ⟨2, NodeKind.shader, "s", [], "vec4 compute();", some "old body", some 7, 8, none, 0,
    some 500⟩

def c7G : Graph := { nodes := [c7Shader], edges := [] }

def alwaysFail : CompileOracle := fun _ _ => some (false, "boom")

/-- Counterexample to C7: on a failing recompile the previously-compiled
program (handle 7) is NOT left intact — `evaluate` deletes it before the
compile attempt (the `deleteProgram 2 7` event below), leaving the node
holding a stale handle.  Error capture and execution skip do hold. -/
theorem shaderCompileFailure_deletes_counterexample :
    Ev.deleteProgram 2 7 ∈ (shaderEvaluate alwaysFail c7G c7Shader).2 ∧
    (shaderEvaluate alwaysFail c7G c7Shader).1.error
      = some "Shader compilation error: boom" ∧
    renderEvents (shaderEvaluate alwaysFail c7G c7Shader).2 = [] ∧
    (shaderEvaluate alwaysFail c7G c7Shader).1.program = some 7 := by
  refine ⟨by decide, by decide, by decide, by decide⟩

/-- Witness for the amended C7 at the concrete failing scenario. -/
theorem shaderEvaluate_compile_failure_witness :
    (shaderEvaluate alwaysFail c7G c7Shader).1.error
      = some (throwMsg (false, "boom")) ∧
    renderEvents (shaderEvaluate alwaysFail c7G c7Shader).2 = [] ∧
    (shaderEvaluate alwaysFail c7G c7Shader).1.program = c7Shader.program ∧
    (shaderEvaluate alwaysFail c7G c7Shader).1.lastCode = c7Shader.lastCode ∧
    (∀ p, c7Shader.program = some p →
      Ev.deleteProgram c7Shader.id p ∈ (shaderEvaluate alwaysFail c7G c7Shader).2) :=
  shaderEvaluate_compile_failure alwaysFail c7G c7Shader (false, "boom")
    (by decide) (by decide) (by decide)



/-! ## Claim C4: self-loops are detected and re-evaluated -/

theorem filter_impl_sublist {p q : Nat → Bool} (himp : ∀ a, p a = true → q a = true) :
    ∀ l : List Nat, List.Sublist (l.filter p) (l.filter q) := by
  intro l
  induction l with
  | nil => simp
  | cons a as ih =>
    by_cases hp : p a = true
    · simp only [List.filter_cons, hp, himp a hp, if_true]
      exact ih.cons₂ a
    · simp only [List.filter_cons, hp, if_false]
      by_cases hq : q a = true
      · simp only [hq, if_true]
        exact ih.cons a
      · simp only [hq, if_false]
        exact ih

/-- A node visited while on the recursion stack lands in `cycles`. -/
theorem visit_inVisiting_cycles (edges : List Edge) (fuel : Nat) (x : Nat)
    (t u : VisitState) (h : visit edges fuel x t = some u) (hx : x ∈ t.visiting) :
    x ∈ u.cycles := by
  cases fuel with
  | zero => simp [visit] at h
  | succ fuel =>
    simp only [visit, if_pos hx, Option.some.injEq] at h
    subst h
    simp

/-- Given a self-loop on `nid`, every `visit` preserves the invariant
"if `nid` has been visited then `nid` was recorded as a cycle entry". -/
theorem visit_selfloop (edges : List Edge) (nid : Nat)
    (hedge : ∃ e ∈ edges, e.src = nid ∧ e.dst = nid) :
    ∀ fuel x s s', visit edges fuel x s = some s' →
      (nid ∈ s.visited → nid ∈ s.cycles) → (nid ∈ s'.visited → nid ∈ s'.cycles) := by
  intro fuel
  induction fuel with
  | zero => intro x s s' h; simp [visit] at h
  | succ fuel ih =>
    intro x s s' h hinv
    by_cases hv : x ∈ s.visiting
    · simp only [visit, if_pos hv, Option.some.injEq] at h
      subst h
      intro hx
      exact List.mem_append_left _ (hinv hx)
    · by_cases hvd : x ∈ s.visited
      · simp only [visit, if_neg hv, if_pos hvd, Option.some.injEq] at h
        subst h
        exact hinv
      · simp only [visit, if_neg hv, if_neg hvd] at h
        cases hD : visitDeps (fun m t => visit edges fuel m t)
            (getEdgesTo edges x) { s with visiting := x :: s.visiting } with
        | none => rw [hD] at h; exact absurd h (by simp)
        | some s2 =>
          rw [hD] at h
          simp only [Option.some.injEq] at h
          subst h
          -- fold-level: invariant preserved, and when nid is on the stack and
          -- some dep edge has source nid, nid ends in cycles
          have haux : ∀ (es : List Edge) (t t' : VisitState),
              visitDeps (fun m u => visit edges fuel m u) es t = some t' →
              (nid ∈ t.visited → nid ∈ t.cycles) →
              ((nid ∈ t.visited → nid ∈ t.cycles) → False) ∨
              ((nid ∈ t'.visited → nid ∈ t'.cycles) ∧
                (nid ∈ t.visiting → (∃ e ∈ es, e.src = nid) → nid ∈ t'.cycles)) := by
            intro es
            induction es with
            | nil =>
              intro t t' hfold hin
              simp only [visitDeps, Option.some.injEq] at hfold
              subst hfold
              right
              refine ⟨hin, ?_⟩
              rintro _ ⟨e, he, _⟩
              simp at he
            | cons e rest ihes =>
              intro t t' hfold hin
              simp only [visitDeps] at hfold
              cases hu : visit edges fuel e.src t with
              | none => rw [hu] at hfold; exact absurd hfold (by simp)
              | some u =>
                rw [hu] at hfold
                have hinv_u : nid ∈ u.visited → nid ∈ u.cycles := ih e.src t u hu hin
                rcases ihes u t' hfold hinv_u with hbad | ⟨h1, h2⟩
                · exact absurd hinv_u hbad
                right
                refine ⟨h1, ?_⟩
                rintro hstack ⟨e', he', hsrc⟩
                rcases List.mem_cons.mp he' with rfl | he''
                · -- the self edge itself: visiting e'.src = nid while on stack
                  have hx' : e'.src ∈ t.visiting := by rw [hsrc]; exact hstack
                  have hcy : nid ∈ u.cycles := by
                    have hcy0 := visit_inVisiting_cycles edges fuel e'.src t u hu hx'
                    rw [hsrc] at hcy0
                    exact hcy0
                  -- cycles are monotone through the rest of the fold
                  have hmono := visitDeps_spec (fun m u => visit edges fuel m u)
                    (fun m t t' ht =>
                      let r := visit_spec edges fuel m t t' ht
                      ⟨r.1, r.2.1, r.2.2.1, r.2.2.2.1⟩) rest u t' hfold
                  exact hmono.2.2.1 nid hcy
                · apply h2 ?_ ⟨e', he'', hsrc⟩
                  rw [(visit_spec edges fuel e.src t u hu).1]
                  exact hstack
          by_cases hx : x = nid
          · subst hx
            rcases hedge with ⟨e, he, hsrc, hdst⟩
            have heT : e ∈ getEdgesTo edges x := List.mem_filter.mpr ⟨he, by simp [hdst]⟩
            rcases haux (getEdgesTo edges x) _ s2 hD
                (by intro hc; exact absurd hc hvd) with hbad | ⟨h1, h2⟩
            · exact absurd (fun hc => absurd hc hvd) hbad
            · intro _
              exact h2 (List.mem_cons_self _ _) ⟨e, heT, hsrc⟩
          · rcases haux (getEdgesTo edges x) _ s2 hD
                (by intro hc; exact hinv hc) with hbad | ⟨h1, _⟩
            · exact absurd (fun hc => hinv hc) hbad
            · intro hmem
              rcases List.mem_cons.mp hmem with rfl | hmem'
              · exact absurd rfl hx
              · exact h1 hmem'



/-- `orderStep` chains on `none` forever. -/
theorem orderFold_none (edges : List Edge) (fuel : Nat) :
    ∀ ids : List Nat, ids.foldl (orderStep edges fuel) none = none := by
  intro ids
  induction ids with
  | nil => rfl
  | cons m rest ih => simpa [orderStep] using ih

/-- The self-loop invariant survives the whole top-level loop. -/
theorem orderFold_selfloop (edges : List Edge) (fuel : Nat) (nid : Nat)
    (hedge : ∃ e ∈ edges, e.src = nid ∧ e.dst = nid) :
    ∀ (ids : List Nat) (s s' : VisitState),
      ids.foldl (orderStep edges fuel) (some s) = some s' →
      (nid ∈ s.visited → nid ∈ s.cycles) → (nid ∈ s'.visited → nid ∈ s'.cycles) := by
  intro ids
  induction ids with
  | nil =>
    intro s s' h hin
    simp at h
    subst h
    exact hin
  | cons m rest ih =>
    intro s s' h hin
    by_cases hm : m ∈ s.visited
    · have hstep : orderStep edges fuel (some s) m = some s := by simp [orderStep, hm]
      rw [List.foldl_cons, hstep] at h
      exact ih s s' h hin
    · cases hv : visit edges fuel m s with
      | none =>
        rw [List.foldl_cons, show orderStep edges fuel (some s) m = none by
          simp [orderStep, hm, hv]] at h
        rw [orderFold_none] at h
        exact absurd h (by simp)
      | some u =>
        rw [List.foldl_cons, show orderStep edges fuel (some s) m = some u by
          simp [orderStep, hm, hv]] at h
        exact ih u s' h (visit_selfloop edges nid hedge fuel m s u hv hin)

/-- All ids ever pushed to `cycles` are known candidates. -/
theorem visit_cycles_sub (edges : List Edge) (C : List Nat)
    (hsrcs : ∀ e ∈ edges, e.src ∈ C) :
    ∀ fuel x s s', visit edges fuel x s = some s' → x ∈ C →
      (∀ y ∈ s.cycles, y ∈ C) → (∀ y ∈ s'.cycles, y ∈ C) := by
  intro fuel
  induction fuel with
  | zero => intro x s s' h; simp [visit] at h
  | succ fuel ih =>
    intro x s s' h hx hsub
    by_cases hv : x ∈ s.visiting
    · simp only [visit, if_pos hv, Option.some.injEq] at h
      subst h
      intro y hy
      rcases List.mem_append.mp hy with hy' | hy'
      · exact hsub y hy'
      · rcases List.mem_singleton.mp hy' with rfl
        exact hx
    · by_cases hvd : x ∈ s.visited
      · simp only [visit, if_neg hv, if_pos hvd, Option.some.injEq] at h
        subst h
        exact hsub
      · simp only [visit, if_neg hv, if_neg hvd] at h
        cases hD : visitDeps (fun m t => visit edges fuel m t)
            (getEdgesTo edges x) { s with visiting := x :: s.visiting } with
        | none => rw [hD] at h; exact absurd h (by simp)
        | some s2 =>
          rw [hD] at h
          simp only [Option.some.injEq] at h
          subst h
          have haux : ∀ (es : List Edge), (∀ e ∈ es, e.src ∈ C) →
              ∀ (t t' : VisitState),
                visitDeps (fun m u => visit edges fuel m u) es t = some t' →
                (∀ y ∈ t.cycles, y ∈ C) → (∀ y ∈ t'.cycles, y ∈ C) := by
            intro es
            induction es with
            | nil =>
              intro _ t t' hfold hsub'
              simp only [visitDeps, Option.some.injEq] at hfold
              subst hfold
              exact hsub'
            | cons e rest ihes =>
              intro hes t t' hfold hsub'
              simp only [visitDeps] at hfold
              cases hu : visit edges fuel e.src t with
              | none => rw [hu] at hfold; exact absurd hfold (by simp)
              | some u =>
                rw [hu] at hfold
                exact ihes (fun e' he' => hes e' (List.mem_cons_of_mem _ he')) u t' hfold
                  (ih e.src t u hu (hes e (List.mem_cons_self _ _)) hsub')
          exact haux (getEdgesTo edges x)
            (fun e he => hsrcs e (List.mem_of_mem_filter he)) _ s2 hD hsub

/-- The cycle list of a computed evaluation order only holds node ids or
edge sources. -/
theorem orderCore_cycles_sub (nodeIds : List Nat) (edges : List Edge) (C : List Nat)
    (hsrcs : ∀ e ∈ edges, e.src ∈ C) (hnodes : ∀ x ∈ nodeIds, x ∈ C) :
    ∀ s, orderCore nodeIds edges = some s → ∀ y ∈ s.cycles, y ∈ C := by
  have haux : ∀ (ids : List Nat), (∀ x ∈ ids, x ∈ C) →
      ∀ (s s' : VisitState),
        ids.foldl (orderStep edges (orderFuel nodeIds edges)) (some s) = some s' →
        (∀ y ∈ s.cycles, y ∈ C) → (∀ y ∈ s'.cycles, y ∈ C) := by
    intro ids
    induction ids with
    | nil =>
      intro _ s s' h hsub
      simp at h
      subst h
      exact hsub
    | cons m rest ih =>
      intro hall s s' h hsub
      by_cases hm : m ∈ s.visited
      · rw [List.foldl_cons, show orderStep edges (orderFuel nodeIds edges) (some s) m
            = some s by simp [orderStep, hm]] at h
        exact ih (fun x hx => hall x (List.mem_cons_of_mem _ hx)) s s' h hsub
      · cases hv : visit edges (orderFuel nodeIds edges) m s with
        | none =>
          rw [List.foldl_cons, show orderStep edges (orderFuel nodeIds edges) (some s) m
              = none by simp [orderStep, hm, hv], orderFold_none] at h
          exact absurd h (by simp)
        | some u =>
          rw [List.foldl_cons, show orderStep edges (orderFuel nodeIds edges) (some s) m
              = some u by simp [orderStep, hm, hv]] at h
          exact ih (fun x hx => hall x (List.mem_cons_of_mem _ hx)) u s' h
            (visit_cycles_sub edges C hsrcs (orderFuel nodeIds edges) m s u hv
              (hall m (List.mem_cons_self _ _)) hsub)
  intro s hs
  exact haux nodeIds hnodes initVisit s hs (by simp [initVisit])



/-- Candidate ids `findCycleNodes` can ever be called on. -/
def cfCands (nodeIds : List Nat) (edges : List Edge) : List Nat :=
  (nodeIds ++ edges.map (fun e => e.src) ++ edges.map (fun e => e.dst)).dedup

theorem cfCands_length_lt (nodeIds : List Nat) (edges : List Edge) :
    (cfCands nodeIds edges).length < cycleFuel nodeIds edges := by
  have h1 : (cfCands nodeIds edges).length
      ≤ (nodeIds ++ edges.map (fun e => e.src) ++ edges.map (fun e => e.dst)).length :=
    (List.dedup_sublist _).length_le
  simp only [List.length_append, List.length_map] at h1
  simp only [cycleFuel]
  omega

theorem cycleTargets_sub (nodeIds : List Nat) (edges : List Edge) (cyclesL : List Nat)
    (nd : Nat) : ∀ m ∈ cycleTargets edges cyclesL nd, m ∈ cfCands nodeIds edges := by
  intro m hm
  rcases List.mem_append.mp hm with hm' | hm'
  · rcases List.mem_map.mp hm' with ⟨e, he, rfl⟩
    have he' : e ∈ edges := List.mem_of_mem_filter (List.mem_of_mem_filter he)
    exact List.mem_dedup.mpr (List.mem_append_right _ (List.mem_map.mpr ⟨e, he', rfl⟩))
  · rcases List.mem_map.mp hm' with ⟨e, he, rfl⟩
    have he' : e ∈ edges := List.mem_of_mem_filter (List.mem_of_mem_filter he)
    exact List.mem_dedup.mpr (List.mem_append_left _
      (List.mem_append_right _ (List.mem_map.mpr ⟨e, he', rfl⟩)))

theorem addSet_mono (l : List Nat) (y x : Nat) (hx : x ∈ l) : x ∈ addSet l y := by
  rw [addSet]
  split
  · exact hx
  · exact List.mem_append_left _ hx

theorem addSet_self (l : List Nat) (y : Nat) : y ∈ addSet l y := by
  rw [addSet]
  split
  · assumption
  · simp

theorem fcnStep_mono (f : Nat → (List Nat × List Nat) → Option (List Nat × List Nat))
    (hf : ∀ m t t', f m t = some t' →
      (∀ x ∈ t.1, x ∈ t'.1) ∧ (∀ x ∈ t.2, x ∈ t'.2)) :
    ∀ xs st st', fcnStep f xs st = some st' →
      (∀ x ∈ st.1, x ∈ st'.1) ∧ (∀ x ∈ st.2, x ∈ st'.2) := by
  intro xs
  induction xs with
  | nil =>
    intro st st' h
    simp only [fcnStep, Option.some.injEq] at h
    subst h
    exact ⟨fun x hx => hx, fun x hx => hx⟩
  | cons x xs ih =>
    intro st st' h
    simp only [fcnStep] at h
    cases hx : f x st with
    | none => rw [hx] at h; exact absurd h (by simp)
    | some t' =>
      rw [hx] at h
      obtain ⟨h1, h2⟩ := hf x st t' hx
      obtain ⟨g1, g2⟩ := ih t' st' h
      exact ⟨fun y hy => g1 y (h1 y hy), fun y hy => g2 y (h2 y hy)⟩

theorem fcn_mono (edges : List Edge) (cyclesL : List Nat) :
    ∀ fuel nd st st', findCycleNodes edges cyclesL fuel nd st = some st' →
      (∀ x ∈ st.1, x ∈ st'.1) ∧ (∀ x ∈ st.2, x ∈ st'.2) := by
  intro fuel
  induction fuel with
  | zero => intro nd st st' h; simp [findCycleNodes] at h
  | succ fuel ih =>
    intro nd st st' h
    by_cases hv : nd ∈ st.1
    · simp only [findCycleNodes, if_pos hv, Option.some.injEq] at h
      subst h
      exact ⟨fun x hx => hx, fun x hx => hx⟩
    · simp only [findCycleNodes, if_neg hv] at h
      obtain ⟨h1, h2⟩ := fcnStep_mono _ (fun m t t' ht => ih m t t' ht) _ _ _ h
      exact ⟨fun x hx => h1 x (List.mem_cons_of_mem _ hx),
        fun x hx => h2 x (addSet_mono _ _ _ hx)⟩

theorem fcnStep_some (f : Nat → (List Nat × List Nat) → Option (List Nat × List Nat))
    (cf : List Nat) (B : Nat)
    (hmono : ∀ m t t', f m t = some t' → ∀ x ∈ t.1, x ∈ t'.1)
    (hsome : ∀ m (t : List Nat × List Nat), m ∈ cf →
      (cf.filter (fun x => decide (x ∉ t.1))).length < B → (f m t).isSome) :
    ∀ (xs : List Nat) (st : List Nat × List Nat), (∀ m ∈ xs, m ∈ cf) →
      (cf.filter (fun x => decide (x ∉ st.1))).length < B →
      (fcnStep f xs st).isSome := by
  intro xs
  induction xs with
  | nil => intro st _ _; simp [fcnStep]
  | cons x xs ih =>
    intro st hall hlt
    have h1 : (f x st).isSome := hsome x st (hall x (List.mem_cons_self _ _)) hlt
    rcases Option.isSome_iff_exists.mp h1 with ⟨t', ht'⟩
    simp only [fcnStep, ht']
    apply ih t' (fun m hm => hall m (List.mem_cons_of_mem _ hm))
    have hsub := filter_impl_sublist
      (p := fun x => decide (x ∉ t'.1)) (q := fun x => decide (x ∉ st.1))
      (by
        intro a ha
        simp only [decide_eq_true_eq] at ha ⊢
        intro hc
        exact ha (hmono x st t' ht' a hc)) cf
    have := hsub.length_le
    omega

theorem fcn_some (edges : List Edge) (cyclesL : List Nat) (cf : List Nat)
    (hnd : cf.Nodup)
    (hTargets : ∀ nd, ∀ m ∈ cycleTargets edges cyclesL nd, m ∈ cf) :
    ∀ fuel nd (st : List Nat × List Nat), nd ∈ cf →
      (cf.filter (fun x => decide (x ∉ st.1))).length < fuel →
      (findCycleNodes edges cyclesL fuel nd st).isSome := by
  intro fuel
  induction fuel with
  | zero => intro nd st _ hlt; omega
  | succ fuel ih =>
    intro nd st hnd' hlt
    by_cases hv : nd ∈ st.1
    · simp [findCycleNodes, hv]
    · simp only [findCycleNodes, if_neg hv]
      apply fcnStep_some _ cf fuel
        (fun m t t' ht => (fcn_mono edges cyclesL fuel m t t' ht).1)
        (fun m t hm hl => ih m t hm hl)
        _ _ (hTargets nd)
      have hdec := filter_notmem_cons_length cf hnd nd st.1 hnd' hv
      show (cf.filter (fun x => decide (x ∉ nd :: st.1))).length < fuel
      omega

/-- `cycleMembers` succeeds and contains every recorded cycle entry. -/
theorem cycleMembers_spec (nodeIds : List Nat) (edges : List Edge) (cyclesL : List Nat)
    (hsub : ∀ c ∈ cyclesL, c ∈ cfCands nodeIds edges) :
    ∃ members, cycleMembers nodeIds edges cyclesL = some members ∧
      ∀ c ∈ cyclesL, c ∈ members := by
  have hnd : (cfCands nodeIds edges).Nodup := List.nodup_dedup _
  have hlt := cfCands_length_lt nodeIds edges
  have haux : ∀ (L : List Nat) (cyc : List Nat), (∀ c ∈ L, c ∈ cfCands nodeIds edges) →
      ∃ cyc', L.foldl (fun acc c =>
          match acc with
          | none => none
          | some cyc =>
            match findCycleNodes edges cyclesL (cycleFuel nodeIds edges) c
                ([], addSet cyc c) with
            | none => none
            | some st => some st.2) (some cyc) = some cyc' ∧
        (∀ x ∈ cyc, x ∈ cyc') ∧ (∀ c ∈ L, c ∈ cyc') := by
    intro L
    induction L with
    | nil =>
      intro cyc _
      exact ⟨cyc, rfl, fun x hx => hx, by simp⟩
    | cons c rest ih =>
      intro cyc hall
      have hmeas : ((cfCands nodeIds edges).filter
          (fun x => decide (x ∉ (([] : List Nat), addSet cyc c).1))).length
          < cycleFuel nodeIds edges := by
        have : (cfCands nodeIds edges).filter
            (fun x => decide (x ∉ (([] : List Nat), addSet cyc c).1))
            = cfCands nodeIds edges :=
          List.filter_eq_self.mpr (fun x _ => by simp)
        rw [this]
        exact hlt
      have hs := fcn_some edges cyclesL (cfCands nodeIds edges) hnd
        (fun nd => cycleTargets_sub nodeIds edges cyclesL nd)
        (cycleFuel nodeIds edges) c ([], addSet cyc c)
        (hall c (List.mem_cons_self _ _)) hmeas
      rcases Option.isSome_iff_exists.mp hs with ⟨st, hst⟩
      obtain ⟨m1, m2⟩ := fcn_mono edges cyclesL (cycleFuel nodeIds edges) c _ st hst
      rcases ih st.2 (fun x hx => hall x (List.mem_cons_of_mem _ hx)) with
        ⟨cyc', hc1, hc2, hc3⟩
      refine ⟨cyc', ?_, ?_, ?_⟩
      · simp only [List.foldl_cons, hst]
        exact hc1
      · intro x hx
        exact hc2 x (m2 x (addSet_mono _ _ _ hx))
      · intro c' hc'
        rcases List.mem_cons.mp hc' with rfl | hc''
        · exact hc2 c' (m2 c' (addSet_self _ _))
        · exact hc3 c' hc''
  rcases haux cyclesL [] hsub with ⟨cyc', h1, _, h3⟩
  exact ⟨cyc', h1, h3⟩



/-- Every dispatch emits its `process` event first. -/
theorem evalNodePass_head (co : CompileOracle) (g : Graph) (nid : Nat) :
    ∃ tail, (evalNodePass co g nid).2 = Ev.process nid :: tail := by
  cases hf : findNode g nid with
  | none => exact ⟨[], by simp [evalNodePass, hf]⟩
  | some n =>
    cases hk : n.kind with
    | shader => exact ⟨(shaderEvaluate co g n).2, by simp [evalNodePass, hf, hk]⟩
    | textureBuffer => exact ⟨bufferInputEvents g nid, by simp [evalNodePass, hf, hk]⟩

/-- Each pass processes each listed node at least as often as it occurs. -/
theorem runPass_process_count (co : CompileOracle) (nid : Nat) :
    ∀ (ids : List Nat) (g : Graph) (evs : List Ev),
      ids.count nid + evs.count (Ev.process nid)
        ≤ (runPass co g evs ids).2.count (Ev.process nid) := by
  intro ids
  induction ids with
  | nil => intro g evs; simp [runPass]
  | cons m rest ih =>
    intro g evs
    rcases evalNodePass_head co g m with ⟨tail, htail⟩
    have hstep : runPass co g evs (m :: rest)
        = runPass co (evalNodePass co g m).1 (evs ++ (evalNodePass co g m).2) rest := by
      rw [runPass, List.foldl_cons]
      rfl
    rw [hstep]
    have h1 := ih (evalNodePass co g m).1 (evs ++ (evalNodePass co g m).2)
    have h2 : (evs ++ (evalNodePass co g m).2).count (Ev.process nid)
        = evs.count (Ev.process nid) + (evalNodePass co g m).2.count (Ev.process nid) :=
      List.count_append _ _ _
    have h3 : (rest.count nid) + (if m = nid then 1 else 0) = (m :: rest).count nid := by
      rw [List.count_cons]
      by_cases hm : m = nid
      · simp [hm]
      · simp [hm, Ne.symm hm]
    have h4 : (if m = nid then 1 else 0) ≤ (evalNodePass co g m).2.count (Ev.process nid) := by
      by_cases hm : m = nid
      · subst hm
        rw [htail]
        simp [List.count_cons]
      · simp [hm]
    omega

/-- The cycle entries of any run lie among the candidate ids. -/
theorem orderCore_cycles_cf (g : Graph) (s : VisitState)
    (hs : orderCore (g.nodes.map (fun n => n.id)) g.edges = some s) :
    ∀ y ∈ s.cycles, y ∈ cfCands (g.nodes.map (fun n => n.id)) g.edges := by
  apply orderCore_cycles_sub _ _ _ _ _ _ hs
  · intro e he
    exact List.mem_dedup.mpr (List.mem_append_left _
      (List.mem_append_right _ (List.mem_map.mpr ⟨e, he, rfl⟩)))
  · intro x hx
    exact List.mem_dedup.mpr (List.mem_append_left _ (List.mem_append_left _ hx))

/-- `Graph.evaluate` always terminates: the embedded evaluation never
exhausts its fuel, for any graph and any compile behaviour. -/
theorem graphEvaluate_some (co : CompileOracle) (g : Graph) :
    ∃ g' evs, graphEvaluate co g = some (g', evs) := by
  rcases orderCore_spec (g.nodes.map (fun n => n.id)) g.edges with ⟨s, hs, _, _, _⟩
  have hord : getEvaluationOrder g = some (s.result, s.cycles) := by
    simp [getEvaluationOrder, hs]
  by_cases hcy : s.cycles.isEmpty
  · refine ⟨(runPass co g [] s.result).1, (runPass co g [] s.result).2, ?_⟩
    rw [graphEvaluate, hord]
    simp only [hcy, if_true]
  · rcases cycleMembers_spec (g.nodes.map (fun n => n.id)) g.edges s.cycles
        (orderCore_cycles_cf g s hs) with ⟨members, hm, _⟩
    refine ⟨(runPass co (runPass co g [] s.result).1 (runPass co g [] s.result).2
        members).1,
      (runPass co (runPass co g [] s.result).1 (runPass co g [] s.result).2 members).2,
      ?_⟩
    rw [graphEvaluate, hord]
    simp only [hcy, if_false, hm, Bool.false_eq_true]

/-- C4: a graph containing a self-loop (a node feeding its own input) is
evaluated without infinite recursion — the embedded `Graph.evaluate`
returns — and the looping node is processed at least twice in the one
call: once in the ordered pass and once more in the cycle-resolution
pass. -/
theorem graphEvaluate_selfloop (co : CompileOracle) (g : Graph) (nd : GNode) (e : Edge)
    (hn : nd ∈ g.nodes) (he : e ∈ g.edges) (hsrc : e.src = nd.id) (hdst : e.dst = nd.id) :
    ∃ g' evs, graphEvaluate co g = some (g', evs) ∧
      2 ≤ evs.count (Ev.process nd.id) := by
  rcases orderCore_spec (g.nodes.map (fun n => n.id)) g.edges with
    ⟨s, hs, ⟨hrv, _, _⟩, _, hcov⟩
  have hnid : nd.id ∈ s.visited := hcov nd.id (List.mem_map.mpr ⟨nd, hn, rfl⟩)
  have hcyc : nd.id ∈ s.cycles := by
    have hs' : (g.nodes.map (fun n => n.id)).foldl
        (orderStep g.edges (orderFuel (g.nodes.map (fun n => n.id)) g.edges))
        (some initVisit) = some s := hs
    have hfold := orderFold_selfloop g.edges
      (orderFuel (g.nodes.map (fun n => n.id)) g.edges) nd.id ⟨e, he, hsrc, hdst⟩
      (g.nodes.map (fun n => n.id)) initVisit s hs' (by simp [initVisit])
    exact hfold hnid
  have hres : nd.id ∈ s.result := (hrv nd.id).mpr hnid
  have hord : getEvaluationOrder g = some (s.result, s.cycles) := by
    simp [getEvaluationOrder, hs]
  have hcy : s.cycles.isEmpty = false := by
    cases hcyl : s.cycles with
    | nil => rw [hcyl] at hcyc; simp at hcyc
    | cons a l => simp
  rcases cycleMembers_spec (g.nodes.map (fun n => n.id)) g.edges s.cycles
      (orderCore_cycles_cf g s hs) with ⟨members, hm, hmem⟩
  have hmemn : nd.id ∈ members := hmem nd.id hcyc
  refine ⟨(runPass co (runPass co g [] s.result).1 (runPass co g [] s.result).2
      members).1,
    (runPass co (runPass co g [] s.result).1 (runPass co g [] s.result).2 members).2,
    ?_, ?_⟩
  · rw [graphEvaluate, hord]
    simp only [hcy, if_false, hm, Bool.false_eq_true]
  · have h1 := runPass_process_count co nd.id s.result g []
    have h2 := runPass_process_count co nd.id members
      (runPass co g [] s.result).1 (runPass co g [] s.result).2
    have h3 : 1 ≤ s.result.count nd.id := List.count_pos_iff.mpr hres
    have h4 : 1 ≤ members.count nd.id := List.count_pos_iff.mpr hmemn
    simp only [List.count_nil] at h1
    omega

/-- A concrete one-node graph with a self-loop, for the C4 witness. -/
def selfLoopDemoGraph : Graph :=
  { nodes := [⟨5, NodeKind.shader, "s", [], "vec4 compute();", none, none, 0, none, 0,
      none⟩],
    edges := [⟨5, 0, 5, 0⟩] }

/-- Witness for C4 at `selfLoopDemoGraph`. -/
theorem graphEvaluate_selfloop_witness :
    ∃ g' evs, graphEvaluate alwaysOk selfLoopDemoGraph = some (g', evs) ∧
      2 ≤ evs.count (Ev.process 5) := by
  have h := graphEvaluate_selfloop alwaysOk selfLoopDemoGraph
    ⟨5, NodeKind.shader, "s", [], "vec4 compute();", none, none, 0, none, 0, none⟩
    ⟨5, 0, 5, 0⟩ (by decide) (by decide) (by decide) (by decide)
  simpa using h



/-! ## Claim C3: a compile failure is isolated to its node -/

/-- The graph data a node evaluation reads about OTHER nodes: kind, name,
texture handle and output texture. -/
def projOf (g : Graph) (i : Nat) : Option (NodeKind × String × Nat × Option Nat) :=
  (findNode g i).map (fun nd => (nd.kind, nd.name, nd.texture, nd.outputTexture))

/-- Agreement of two nodes on everything except the compile-related
fields (`program`, `progGen`, `lastCode`, `error`). -/
def AgreeNode (a b : GNode) : Prop :=
  a.id = b.id ∧ a.kind = b.kind ∧ a.name = b.name ∧ a.inputs = b.inputs ∧
  a.code = b.code ∧ a.texture = b.texture ∧ a.outputTexture = b.outputTexture

/-- Two graphs agreeing everywhere except possibly the compile-related
fields of the node with id `X`. -/
def GAgree (X : Nat) (g1 g2 : Graph) : Prop :=
  g1.edges = g2.edges ∧
  List.Forall₂ (fun a b => if a.id = X then AgreeNode a b else a = b) g1.nodes g2.nodes

theorem AgreeNode_refl (a : GNode) : AgreeNode a a :=
  ⟨rfl, rfl, rfl, rfl, rfl, rfl, rfl⟩

theorem GAgree_refl (X : Nat) (g : Graph) : GAgree X g g := by
  refine ⟨rfl, List.forall₂_same.mpr ?_⟩
  intro a _
  split
  · exact AgreeNode_refl a
  · rfl

theorem findAgree_aux (X i : Nat) (l1 l2 : List GNode)
    (hF : List.Forall₂ (fun a b => if a.id = X then AgreeNode a b else a = b) l1 l2) :
    (l1.find? (fun n => n.id == i) = none ∧ l2.find? (fun n => n.id == i) = none) ∨
    (∃ a b, l1.find? (fun n => n.id == i) = some a ∧
      l2.find? (fun n => n.id == i) = some b ∧
      a.id = i ∧ b.id = i ∧ (if i = X then AgreeNode a b else a = b)) := by
  induction hF with
  | nil => exact Or.inl ⟨rfl, rfl⟩
  | cons hab hrest ih =>
    rename_i a b l1 l2
    have hid : a.id = b.id := by
      by_cases hX : a.id = X
      · rw [if_pos hX] at hab
        exact hab.1
      · rw [if_neg hX] at hab
        rw [hab]
    by_cases hi : a.id = i
    · right
      refine ⟨a, b, ?_, ?_, hi, by rw [← hid]; exact hi, ?_⟩
      · exact List.find?_cons_of_pos _ (by simp [hi])
      · exact List.find?_cons_of_pos _ (by simp [← hid, hi])
      · subst hi
        exact hab
    · have h1 : List.find? (fun n => n.id == i) (a :: l1)
          = List.find? (fun n => n.id == i) l1 :=
        List.find?_cons_of_neg _ (by simp [hi])
      have h2 : List.find? (fun n => n.id == i) (b :: l2)
          = List.find? (fun n => n.id == i) l2 :=
        List.find?_cons_of_neg _ (by simp [← hid, hi])
      rw [h1, h2]
      exact ih

theorem GAgree_findNode (X : Nat) (g1 g2 : Graph) (h : GAgree X g1 g2) (i : Nat) :
    (findNode g1 i = none ∧ findNode g2 i = none) ∨
    (∃ a b, findNode g1 i = some a ∧ findNode g2 i = some b ∧
      a.id = i ∧ b.id = i ∧ (if i = X then AgreeNode a b else a = b)) :=
  findAgree_aux X i g1.nodes g2.nodes h.2

theorem GAgree_proj (X : Nat) (g1 g2 : Graph) (h : GAgree X g1 g2) (i : Nat) :
    projOf g1 i = projOf g2 i := by
  rcases GAgree_findNode X g1 g2 h i with ⟨h1, h2⟩ | ⟨a, b, h1, h2, _, _, hrel⟩
  · simp [projOf, h1, h2]
  · simp only [projOf, h1, h2, Option.map_some']
    by_cases hX : i = X
    · rw [if_pos hX] at hrel
      obtain ⟨_, e2, e3, _, _, e6, e7⟩ := hrel
      rw [e2, e3, e6, e7]
    · rw [if_neg hX] at hrel
      rw [hrel]

theorem GAgree_findNode_ne (X : Nat) (g1 g2 : Graph) (h : GAgree X g1 g2) (i : Nat)
    (hne : i ≠ X) : findNode g1 i = findNode g2 i := by
  rcases GAgree_findNode X g1 g2 h i with ⟨h1, h2⟩ | ⟨a, b, h1, h2, _, _, hrel⟩
  · rw [h1, h2]
  · rw [if_neg hne] at hrel
    rw [h1, h2, hrel]

/-- Case split provided by projection agreement. -/
theorem proj_cases (g1 g2 : Graph) (hP : ∀ i, projOf g1 i = projOf g2 i) (s : Nat) :
    (findNode g1 s = none ∧ findNode g2 s = none) ∨
    (∃ a b, findNode g1 s = some a ∧ findNode g2 s = some b ∧
      a.kind = b.kind ∧ a.name = b.name ∧ a.texture = b.texture ∧
      a.outputTexture = b.outputTexture) := by
  have h := hP s
  cases h1 : findNode g1 s with
  | none =>
    cases h2 : findNode g2 s with
    | none => exact Or.inl ⟨rfl, rfl⟩
    | some b =>
      rw [projOf, projOf, h1, h2] at h
      simp [Option.map_some', Option.map_none'] at h
  | some a =>
    cases h2 : findNode g2 s with
    | none =>
      rw [projOf, projOf, h1, h2] at h
      simp [Option.map_some', Option.map_none'] at h
    | some b =>
      rw [projOf, projOf, h1, h2] at h
      simp only [Option.map_some', Option.some.injEq, Prod.mk.injEq] at h
      exact Or.inr ⟨a, b, rfl, rfl, h.1, h.2.1, h.2.2.1, h.2.2.2⟩

theorem isBufferNode_congr (g1 g2 : Graph) (hP : ∀ i, projOf g1 i = projOf g2 i)
    (i : Nat) : isBufferNode g1 i = isBufferNode g2 i := by
  rcases proj_cases g1 g2 hP i with ⟨h1, h2⟩ | ⟨a, b, h1, h2, e1, _, _, _⟩
  · simp [isBufferNode, h1, h2]
  · simp [isBufferNode, h1, h2, e1]

theorem bufferTexture_congr (g1 g2 : Graph) (hP : ∀ i, projOf g1 i = projOf g2 i)
    (i : Nat) : bufferTexture g1 i = bufferTexture g2 i := by
  rcases proj_cases g1 g2 hP i with ⟨h1, h2⟩ | ⟨a, b, h1, h2, _, _, e3, _⟩
  · simp [bufferTexture, h1, h2]
  · simp [bufferTexture, h1, h2, e3]

theorem inputNameFor_congr (g1 g2 : Graph) (hE : g1.edges = g2.edges)
    (hP : ∀ i, projOf g1 i = projOf g2 i) (nid port : Nat) :
    inputNameFor g1 nid port = inputNameFor g2 nid port := by
  cases hL : ((getEdgesTo g2.edges nid).filter (fun e => e.dstPort == port)).getLast? with
  | none => simp [inputNameFor, hE, hL]
  | some e =>
    rcases proj_cases g1 g2 hP e.src with ⟨h1, h2⟩ | ⟨a, b, h1, h2, e1, e2, _, _⟩
    · simp [inputNameFor, hE, hL, h1, h2]
    · simp [inputNameFor, hE, hL, h1, h2, e1, e2]

theorem getFullShaderCode_congr (g1 g2 : Graph) (hE : g1.edges = g2.edges)
    (hP : ∀ i, projOf g1 i = projOf g2 i) (n1 n2 : GNode) (hid : n1.id = n2.id)
    (hcode : n1.code = n2.code) :
    getFullShaderCode g1 n1 = getFullShaderCode g2 n2 := by
  rw [getFullShaderCode, getFullShaderCode, hid, hcode]
  have hdecl : inputDeclarations g1 n2.id = inputDeclarations g2 n2.id := by
    rw [inputDeclarations, inputDeclarations, ← hE]
    have hnames : ∀ ps : List Nat,
        ps.map (fun p => "uniform sampler2D " ++ inputNameFor g1 n2.id p ++ ";")
          = ps.map (fun p => "uniform sampler2D " ++ inputNameFor g2 n2.id p ++ ";") := by
      intro ps
      apply List.map_congr_left
      intro p _
      rw [inputNameFor_congr g1 g2 hE hP]
    simp only [hnames]
  rw [hdecl]



/-- With identical node data, target resolution is identical in two graphs
agreeing on edges and node projections. -/
theorem resolveTarget_full_congr (g1 g2 : Graph) (hE : g1.edges = g2.edges)
    (hP : ∀ i, projOf g1 i = projOf g2 i) (n : GNode) :
    resolveTarget g1 n = resolveTarget g2 n := by
  have hpred : (fun e : Edge => isBufferNode g1 e.dst)
      = (fun e : Edge => isBufferNode g2 e.dst) :=
    funext (fun e => isBufferNode_congr g1 g2 hP e.dst)
  have hfind : (getEdgesFrom g1.edges n.id).find? (fun e => isBufferNode g1 e.dst)
      = (getEdgesFrom g2.edges n.id).find? (fun e => isBufferNode g2 e.dst) := by
    rw [hE, hpred]
  rw [resolveTarget, resolveTarget, hfind]
  cases (getEdgesFrom g2.edges n.id).find? (fun e => isBufferNode g2 e.dst) with
  | some e =>
    show (n, bufferTexture g1 e.dst) = (n, bufferTexture g2 e.dst)
    rw [bufferTexture_congr g1 g2 hP]
  | none => rfl

/-- Related nodes resolve to the same target texture and the same
resulting `outputTexture`. -/
theorem resolveTarget_agree (g1 g2 : Graph) (hE : g1.edges = g2.edges)
    (hP : ∀ i, projOf g1 i = projOf g2 i) (a b : GNode) (hid : a.id = b.id)
    (hot : a.outputTexture = b.outputTexture) :
    (resolveTarget g1 a).2 = (resolveTarget g2 b).2 ∧
    (resolveTarget g1 a).1.outputTexture = (resolveTarget g2 b).1.outputTexture := by
  have hpred : (fun e : Edge => isBufferNode g1 e.dst)
      = (fun e : Edge => isBufferNode g2 e.dst) :=
    funext (fun e => isBufferNode_congr g1 g2 hP e.dst)
  have hfind : (getEdgesFrom g1.edges a.id).find? (fun e => isBufferNode g1 e.dst)
      = (getEdgesFrom g2.edges b.id).find? (fun e => isBufferNode g2 e.dst) := by
    rw [hE, hpred, hid]
  rw [resolveTarget, resolveTarget, hfind]
  cases (getEdgesFrom g2.edges b.id).find? (fun e => isBufferNode g2 e.dst) with
  | some e =>
    exact ⟨bufferTexture_congr g1 g2 hP e.dst, hot⟩
  | none =>
    cases hoa : a.outputTexture with
    | some t =>
      have hob : b.outputTexture = some t := hot ▸ hoa
      rw [hob]
      exact ⟨rfl, hot⟩
    | none =>
      have hob : b.outputTexture = none := hot ▸ hoa
      rw [hob]
      exact ⟨by rw [hid], by rw [hid]⟩

/-- Any nonempty-body evaluation only rewrites the compile-related fields
of the target-resolved node. -/
theorem shaderEvaluate_shape (co : CompileOracle) (g : Graph) (n : GNode)
    (hc : n.code ≠ "") :
    ∃ pr pg lc er,
      (shaderEvaluate co g n).1
        = { (resolveTarget g n).1 with
            program := pr, progGen := pg, lastCode := lc, error := er } := by
  rw [shaderEvaluate, if_neg hc]
  simp only [shaderEvalTry]
  by_cases hgate : ((resolveTarget g n).1.program.isNone
      || !((resolveTarget g n).1.lastCode == some (resolveTarget g n).1.code)) = true
  · rw [if_pos hgate]
    cases hco : co (resolveTarget g n).1.id
        (getFullShaderCode g (resolveTarget g n).1) with
    | none => exact ⟨_, _, _, _, rfl⟩
    | some err =>
      have hct := throwMsg_contains err
      refine ⟨(resolveTarget g n).1.program, (resolveTarget g n).1.progGen,
        (resolveTarget g n).1.lastCode, some (throwMsg err), ?_⟩
      simp only [hct, if_true]
  · rw [if_neg hgate]
    cases hp : (resolveTarget g n).1.program with
    | some p =>
      refine ⟨some p, (resolveTarget g n).1.progGen,
        (resolveTarget g n).1.lastCode, (resolveTarget g n).1.error, ?_⟩
      have hkey : (resolveTarget g n).1
          = { (resolveTarget g n).1 with program := some p } := by rw [← hp]
      exact hkey
    | none =>
      refine ⟨none, (resolveTarget g n).1.progGen,
        (resolveTarget g n).1.lastCode, (resolveTarget g n).1.error, ?_⟩
      have hkey : (resolveTarget g n).1
          = { (resolveTarget g n).1 with program := none } := by rw [← hp]
      exact hkey

/-- Field preservation of one shader evaluation. -/
theorem shaderEvaluate_skel (co : CompileOracle) (g : Graph) (n : GNode) :
    (shaderEvaluate co g n).1.id = n.id ∧ (shaderEvaluate co g n).1.kind = n.kind ∧
    (shaderEvaluate co g n).1.name = n.name ∧
    (shaderEvaluate co g n).1.inputs = n.inputs ∧
    (shaderEvaluate co g n).1.code = n.code ∧
    (shaderEvaluate co g n).1.texture = n.texture := by
  by_cases hc : n.code = ""
  · rw [shaderEvaluate, if_pos hc]
    exact ⟨rfl, rfl, rfl, rfl, rfl, rfl⟩
  · obtain ⟨pr, pg, lc, er, hsh⟩ := shaderEvaluate_shape co g n hc
    obtain ⟨ot, hrt⟩ := resolveTarget_eq g n
    rw [hsh, hrt]
    exact ⟨rfl, rfl, rfl, rfl, rfl, rfl⟩

/-- The output texture after a nonempty-body evaluation is the one fixed
by target resolution. -/
theorem shaderEvaluate_ot (co : CompileOracle) (g : Graph) (n : GNode)
    (hc : n.code ≠ "") :
    (shaderEvaluate co g n).1.outputTexture = (resolveTarget g n).1.outputTexture := by
  obtain ⟨pr, pg, lc, er, hsh⟩ := shaderEvaluate_shape co g n hc
  rw [hsh]

/-- All events a shader evaluation emits are tagged with the node's id. -/
theorem shaderEvaluate_tags (co : CompileOracle) (g : Graph) (n : GNode) :
    ∀ ev ∈ (shaderEvaluate co g n).2, evNode ev = n.id := by
  by_cases hc : n.code = ""
  · rw [shaderEvaluate, if_pos hc]
    simp
  · obtain ⟨ot, hrt⟩ := resolveTarget_eq g n
    have hid : (resolveTarget g n).1.id = n.id := by rw [hrt]
    rw [shaderEvaluate, if_neg hc]
    simp only [shaderEvalTry]
    by_cases hgate : ((resolveTarget g n).1.program.isNone
        || !((resolveTarget g n).1.lastCode == some (resolveTarget g n).1.code)) = true
    · rw [if_pos hgate]
      cases hco : co (resolveTarget g n).1.id
          (getFullShaderCode g (resolveTarget g n).1) with
      | none =>
        cases hp : (resolveTarget g n).1.program with
        | none =>
          intro ev hev
          simp only [List.nil_append] at hev
          rcases List.mem_cons.mp hev with rfl | hev'
          · rw [evNode, hid]
          · rcases List.mem_singleton.mp hev' with rfl
            rw [evNode, hid]
        | some p =>
          intro ev hev
          rcases List.mem_append.mp hev with hev' | hev'
          · rcases List.mem_singleton.mp hev' with rfl
            rw [evNode, hid]
          · rcases List.mem_cons.mp hev' with rfl | hev''
            · rw [evNode, hid]
            · rcases List.mem_singleton.mp hev'' with rfl
              rw [evNode, hid]
      | some err =>
        have hct := throwMsg_contains err
        simp only [hct, if_true]
        cases hp : (resolveTarget g n).1.program with
        | none =>
          intro ev hev
          simp only [List.nil_append] at hev
          rcases List.mem_singleton.mp hev with rfl
          rw [evNode, hid]
        | some p =>
          intro ev hev
          rcases List.mem_append.mp hev with hev' | hev'
          · rcases List.mem_singleton.mp hev' with rfl
            rw [evNode, hid]
          · rcases List.mem_singleton.mp hev' with rfl
            rw [evNode, hid]
    · rw [if_neg hgate]
      cases hp : (resolveTarget g n).1.program with
      | some p =>
        intro ev hev
        rcases List.mem_singleton.mp hev with rfl
        rw [evNode, hid]
      | none =>
        intro ev hev
        simp at hev

/-- Shader evaluation of one and the same node is identical in two graphs
that agree on edges and projections, under oracles that agree on the
node. -/
theorem shaderEvaluate_congr (o1 o2 : CompileOracle) (g1 g2 : Graph) (n : GNode)
    (hE : g1.edges = g2.edges) (hP : ∀ i, projOf g1 i = projOf g2 i)
    (hco : o1 n.id = o2 n.id) :
    shaderEvaluate o1 g1 n = shaderEvaluate o2 g2 n := by
  by_cases hc : n.code = ""
  · rw [shaderEvaluate, shaderEvaluate, if_pos hc, if_pos hc]
  · have hrr := resolveTarget_full_congr g1 g2 hE hP n
    have hid2 : (resolveTarget g2 n).1.id = n.id := by
      obtain ⟨ot2, hrt2⟩ := resolveTarget_eq g2 n
      rw [hrt2]
    have htry : shaderEvalTry o1 g1 (resolveTarget g2 n).1 (resolveTarget g2 n).2
        = shaderEvalTry o2 g2 (resolveTarget g2 n).1 (resolveTarget g2 n).2 := by
      simp only [shaderEvalTry]
      rw [getFullShaderCode_congr g1 g2 hE hP (resolveTarget g2 n).1
        (resolveTarget g2 n).1 rfl rfl]
      rw [show o1 (resolveTarget g2 n).1.id = o2 (resolveTarget g2 n).1.id by
        rw [hid2]; exact hco]
    simp only [shaderEvaluate]
    rw [if_neg hc, if_neg hc, hrr, htry]



/-- Shader evaluation keeps related nodes related: only compile-related
fields can diverge. -/
theorem shaderEvaluate_agreeX (o1 o2 : CompileOracle) (g1 g2 : Graph) (a b : GNode)
    (hE : g1.edges = g2.edges) (hP : ∀ i, projOf g1 i = projOf g2 i)
    (hab : AgreeNode a b) :
    AgreeNode (shaderEvaluate o1 g1 a).1 (shaderEvaluate o2 g2 b).1 := by
  obtain ⟨e1, e2, e3, e4, e5, e6, e7⟩ := hab
  by_cases hc : a.code = ""
  · have hcb : b.code = "" := by rw [← e5, hc]
    rw [shaderEvaluate, shaderEvaluate, if_pos hc, if_pos hcb]
    exact ⟨e1, e2, e3, e4, e5, e6, e7⟩
  · have hcb : b.code ≠ "" := by rw [← e5]; exact hc
    obtain ⟨s1, s2, s3, s4, s5, s6⟩ := shaderEvaluate_skel o1 g1 a
    obtain ⟨t1, t2, t3, t4, t5, t6⟩ := shaderEvaluate_skel o2 g2 b
    have hot1 := shaderEvaluate_ot o1 g1 a hc
    have hot2 := shaderEvaluate_ot o2 g2 b hcb
    have hres := resolveTarget_agree g1 g2 hE hP a b e1 e7
    refine ⟨?_, ?_, ?_, ?_, ?_, ?_, ?_⟩
    · rw [s1, t1, e1]
    · rw [s2, t2, e2]
    · rw [s3, t3, e3]
    · rw [s4, t4, e4]
    · rw [s5, t5, e5]
    · rw [s6, t6, e6]
    · rw [hot1, hot2]
      exact hres.2

theorem shaderGetOutputTexture_congr (g1 g2 : Graph) (hE : g1.edges = g2.edges)
    (hP : ∀ i, projOf g1 i = projOf g2 i) (srcId port : Nat) :
    shaderGetOutputTexture g1 srcId port = shaderGetOutputTexture g2 srcId port := by
  have hpred : (fun e : Edge => e.srcPort == port && isBufferNode g1 e.dst)
      = (fun e : Edge => e.srcPort == port && isBufferNode g2 e.dst) := by
    funext e
    rw [isBufferNode_congr g1 g2 hP]
  have hfind : (getEdgesFrom g1.edges srcId).find?
        (fun e => e.srcPort == port && isBufferNode g1 e.dst)
      = (getEdgesFrom g2.edges srcId).find?
        (fun e => e.srcPort == port && isBufferNode g2 e.dst) := by
    rw [hE, hpred]
  rw [shaderGetOutputTexture, shaderGetOutputTexture, hfind]
  cases (getEdgesFrom g2.edges srcId).find?
      (fun e => e.srcPort == port && isBufferNode g2 e.dst) with
  | some e =>
    show some (bufferTexture g1 e.dst) = some (bufferTexture g2 e.dst)
    rw [bufferTexture_congr g1 g2 hP]
  | none =>
    rcases proj_cases g1 g2 hP srcId with ⟨h1, h2⟩ | ⟨x, y, h1, h2, _, _, _, e4⟩
    · rw [h1, h2]
    · rw [h1, h2]
      exact e4

theorem srcTexOf_congr (g1 g2 : Graph) (hE : g1.edges = g2.edges)
    (hP : ∀ i, projOf g1 i = projOf g2 i) (e : Edge) :
    srcTexOf g1 e = srcTexOf g2 e := by
  rcases proj_cases g1 g2 hP e.src with ⟨h1, h2⟩ | ⟨x, y, h1, h2, e1, _, e3, _⟩
  · rw [srcTexOf, srcTexOf, h1, h2]
  · rw [srcTexOf, srcTexOf, h1, h2]
    show (match x.kind with
      | NodeKind.textureBuffer => some x.texture
      | NodeKind.shader => shaderGetOutputTexture g1 e.src e.srcPort)
      = (match y.kind with
      | NodeKind.textureBuffer => some y.texture
      | NodeKind.shader => shaderGetOutputTexture g2 e.src e.srcPort)
    rw [← e1]
    cases x.kind with
    | textureBuffer =>
      show some x.texture = some y.texture
      rw [e3]
    | shader => exact shaderGetOutputTexture_congr g1 g2 hE hP e.src e.srcPort

theorem bufferInputEvents_congr (g1 g2 : Graph) (hE : g1.edges = g2.edges)
    (hP : ∀ i, projOf g1 i = projOf g2 i) (nid : Nat) :
    bufferInputEvents g1 nid = bufferInputEvents g2 nid := by
  rw [bufferInputEvents, bufferInputEvents, hE]
  apply List.filterMap_congr
  intro e _
  rw [srcTexOf_congr g1 g2 hE hP]

theorem bufferInputEvents_tags (g : Graph) (nid : Nat) :
    ∀ ev ∈ bufferInputEvents g nid, evNode ev = nid := by
  intro ev hev
  rw [bufferInputEvents] at hev
  rcases List.mem_filterMap.mp hev with ⟨e, _, he⟩
  cases ht : srcTexOf g e with
  | none => rw [ht] at he; exact absurd he (by simp)
  | some t =>
    rw [ht] at he
    simp only [Option.some.injEq] at he
    rw [← he, evNode]

theorem updateNode_congr (X : Nat) (g1 g2 : Graph) (hag : GAgree X g1 g2)
    (n1 n2 : GNode) (hid : n1.id = n2.id)
    (hrel : if n1.id = X then AgreeNode n1 n2 else n1 = n2) :
    GAgree X (updateNode g1 n1) (updateNode g2 n2) := by
  obtain ⟨hE, hF⟩ := hag
  refine ⟨hE, ?_⟩
  show List.Forall₂ _ (g1.nodes.map fun m => if m.id == n1.id then n1 else m)
    (g2.nodes.map fun m => if m.id == n2.id then n2 else m)
  rw [List.forall₂_map_left_iff, List.forall₂_map_right_iff]
  apply List.Forall₂.imp _ hF
  intro a b hab
  have hidab : a.id = b.id := by
    by_cases hX : a.id = X
    · rw [if_pos hX] at hab; exact hab.1
    · rw [if_neg hX] at hab; rw [hab]
  by_cases hcond : a.id = n1.id
  · have h1 : (a.id == n1.id) = true := by simp [hcond]
    have h2 : (b.id == n2.id) = true := by simp [← hidab, hcond, hid]
    simp only [h1, h2, if_true]
    exact hrel
  · have h1 : (a.id == n1.id) = false := by simp [hcond]
    have h2 : (b.id == n2.id) = false := by simp [← hidab, hid]; rw [← hid]; exact hcond
    simp only [h1, h2, if_false]
    exact hab

theorem evalNodePass_tags (co : CompileOracle) (g : Graph) (m : Nat) :
    ∀ ev ∈ (evalNodePass co g m).2, evNode ev = m := by
  cases hf : findNode g m with
  | none =>
    intro ev hev
    simp only [evalNodePass, hf] at hev
    rcases List.mem_singleton.mp hev with rfl
    rfl
  | some n =>
    have hnid : n.id = m := by simpa using List.find?_some hf
    cases hk : n.kind with
    | shader =>
      intro ev hev
      simp only [evalNodePass, hf, hk] at hev
      rcases List.mem_cons.mp hev with rfl | hev'
      · rfl
      · rw [shaderEvaluate_tags co g n ev hev', hnid]
    | textureBuffer =>
      intro ev hev
      simp only [evalNodePass, hf, hk] at hev
      rcases List.mem_cons.mp hev with rfl | hev'
      · rfl
      · exact bufferInputEvents_tags g m ev hev'



theorem evalNodePass_congr (X : Nat) (o1 o2 : CompileOracle)
    (hagr : ∀ m, m ≠ X → o1 m = o2 m) (g1 g2 : Graph) (hag : GAgree X g1 g2)
    (m : Nat) :
    GAgree X (evalNodePass o1 g1 m).1 (evalNodePass o2 g2 m).1 ∧
    (m ≠ X → (evalNodePass o1 g1 m).2 = (evalNodePass o2 g2 m).2) := by
  have hE := hag.1
  have hP := GAgree_proj X g1 g2 hag
  rcases GAgree_findNode X g1 g2 hag m with ⟨h1, h2⟩ | ⟨a, b, h1, h2, hida, hidb, hrel⟩
  · constructor
    · simp only [evalNodePass, h1, h2]
      exact hag
    · intro _
      simp only [evalNodePass, h1, h2]
  · have hkind : a.kind = b.kind := by
      by_cases hX : m = X
      · rw [if_pos hX] at hrel
        exact hrel.2.1
      · rw [if_neg hX] at hrel
        rw [hrel]
    cases hk : a.kind with
    | textureBuffer =>
      have hkb : b.kind = NodeKind.textureBuffer := by rw [← hkind, hk]
      constructor
      · simp only [evalNodePass, h1, h2, hk, hkb]
        exact hag
      · intro _
        simp only [evalNodePass, h1, h2, hk, hkb]
        rw [bufferInputEvents_congr g1 g2 hE hP]
    | shader =>
      have hkb : b.kind = NodeKind.shader := by rw [← hkind, hk]
      by_cases hX : m = X
      · -- the distinguished node: states stay related, events unconstrained
        rw [if_pos hX] at hrel
        have hres := shaderEvaluate_agreeX o1 o2 g1 g2 a b hE hP hrel
        have hid' : (shaderEvaluate o1 g1 a).1.id = (shaderEvaluate o2 g2 b).1.id :=
          hres.1
        constructor
        · simp only [evalNodePass, h1, h2, hk, hkb]
          apply updateNode_congr X g1 g2 hag _ _ hid'
          have hidX : (shaderEvaluate o1 g1 a).1.id = X := by
            rw [(shaderEvaluate_skel o1 g1 a).1, hida, hX]
          rw [if_pos hidX]
          exact hres
        · intro hc
          exact absurd hX hc
      · rw [if_neg hX] at hrel
        subst hrel
        have heq : shaderEvaluate o1 g1 a = shaderEvaluate o2 g2 a := by
          apply shaderEvaluate_congr o1 o2 g1 g2 a hE hP
          apply hagr
          rw [hida]
          exact hX
        constructor
        · simp only [evalNodePass, h1, h2, hk, heq]
          apply updateNode_congr X g1 g2 hag _ _ rfl
          have hidX : ¬ (shaderEvaluate o2 g2 a).1.id = X := by
            rw [(shaderEvaluate_skel o2 g2 a).1, hida]
            exact hX
          rw [if_neg hidX]
        · intro _
          simp only [evalNodePass, h1, h2, hk, heq]

theorem evsOf_append (nid : Nat) (l1 l2 : List Ev) :
    evsOf nid (l1 ++ l2) = evsOf nid l1 ++ evsOf nid l2 :=
  List.filter_append _ _

theorem runPass_congr (X : Nat) (o1 o2 : CompileOracle)
    (hagr : ∀ m, m ≠ X → o1 m = o2 m) :
    ∀ (ids : List Nat) (g1 g2 : Graph) (evs1 evs2 : List Ev), GAgree X g1 g2 →
      (∀ m, m ≠ X → evsOf m evs1 = evsOf m evs2) →
      GAgree X (runPass o1 g1 evs1 ids).1 (runPass o2 g2 evs2 ids).1 ∧
      (∀ m, m ≠ X →
        evsOf m (runPass o1 g1 evs1 ids).2 = evsOf m (runPass o2 g2 evs2 ids).2) := by
  intro ids
  induction ids with
  | nil =>
    intro g1 g2 evs1 evs2 hag hevs
    exact ⟨hag, hevs⟩
  | cons nid rest ih =>
    intro g1 g2 evs1 evs2 hag hevs
    obtain ⟨hg', hev'⟩ := evalNodePass_congr X o1 o2 hagr g1 g2 hag nid
    have hstep1 : runPass o1 g1 evs1 (nid :: rest)
        = runPass o1 (evalNodePass o1 g1 nid).1 (evs1 ++ (evalNodePass o1 g1 nid).2)
            rest := by
      rw [runPass, List.foldl_cons]
      rfl
    have hstep2 : runPass o2 g2 evs2 (nid :: rest)
        = runPass o2 (evalNodePass o2 g2 nid).1 (evs2 ++ (evalNodePass o2 g2 nid).2)
            rest := by
      rw [runPass, List.foldl_cons]
      rfl
    rw [hstep1, hstep2]
    apply ih _ _ _ _ hg'
    intro m hm
    rw [evsOf_append, evsOf_append, hevs m hm]
    by_cases hnid : nid = X
    · -- the distinguished node's events carry only its own id and vanish
      have hemp : ∀ (o : CompileOracle) (g : Graph),
          evsOf m (evalNodePass o g nid).2 = [] := by
        intro o g
        rw [evsOf, List.filter_eq_nil_iff]
        intro ev hev
        have ht := evalNodePass_tags o g nid ev hev
        simp only [beq_iff_eq]
        intro hc
        exact hm (by rw [← hc, ht, hnid])
      rw [hemp o1 g1, hemp o2 g2]
    · rw [hev' hnid]



/-! ## The failing node: state tracking through the passes -/

theorem shaderEvaluate_failX (co : CompileOracle) (g : Graph) (n : GNode)
    (err : Bool × String) (hc : n.code ≠ "")
    (hgate : n.program = none ∨ n.lastCode ≠ some n.code)
    (hfail : ∀ src, co n.id src = some err) :
    (shaderEvaluate co g n).1
      = { (resolveTarget g n).1 with error := some (throwMsg err) } ∧
    ∀ i p t, Ev.render i p t ∉ (shaderEvaluate co g n).2 := by
  obtain ⟨ot, hrt⟩ := resolveTarget_eq g n
  have hid : (resolveTarget g n).1.id = n.id := by rw [hrt]
  have hgate' : ((resolveTarget g n).1.program.isNone
      || !((resolveTarget g n).1.lastCode == some (resolveTarget g n).1.code))
      = true := by
    rw [hrt]
    rcases hgate with h | h
    · show (n.program.isNone || !(n.lastCode == some n.code)) = true
      simp [h]
    · show (n.program.isNone || !(n.lastCode == some n.code)) = true
      simp [h]
  have hco : co (resolveTarget g n).1.id (getFullShaderCode g (resolveTarget g n).1)
      = some err := by rw [hid]; exact hfail _
  have hct := throwMsg_contains err
  rw [shaderEvaluate, if_neg hc]
  simp only [shaderEvalTry, hgate', if_true, hco, hct]
  refine ⟨by simp, ?_⟩
  intro i p t hmem
  cases hpr : (resolveTarget g n).1.program <;> simp [hpr] at hmem

theorem find?_map_update_ne (l : List GNode) (n' : GNode) (nid : Nat)
    (hne : n'.id ≠ nid) :
    (l.map (fun m => if m.id == n'.id then n' else m)).find? (fun n => n.id == nid)
      = l.find? (fun n => n.id == nid) := by
  induction l with
  | nil => rfl
  | cons m rest ih =>
    rw [List.map_cons]
    by_cases hm : m.id = n'.id
    · rw [if_pos (by simp [hm])]
      rw [List.find?_cons_of_neg _ (by simp [hne]),
        List.find?_cons_of_neg _ (by simp [hm, hne])]
      exact ih
    · rw [if_neg (by simp [hm])]
      cases hpz : ((m.id == nid) : Bool) with
      | false =>
        rw [List.find?_cons_of_neg _ (by simp_all),
          List.find?_cons_of_neg _ (by simp_all)]
        exact ih
      | true =>
        have h1 : List.find? (fun n => n.id == nid)
            (m :: List.map (fun k => if k.id == n'.id then n' else k) rest)
            = some m := List.find?_cons_of_pos _ hpz
        have h2 : List.find? (fun n => n.id == nid) (m :: rest) = some m :=
          List.find?_cons_of_pos _ hpz
        rw [h1, h2]

/-- Invariant: the distinguished node exists, is a shader with nonempty
body and no compiled program, and (once `b` holds) carries the thrown
compile-error message in its error state. -/
def FailInv (X : Nat) (msg : String) (b : Prop) (g : Graph) : Prop :=
  ∃ nX, findNode g X = some nX ∧ nX.kind = NodeKind.shader ∧ nX.code ≠ "" ∧
    (nX.program = none ∨ nX.lastCode ≠ some nX.code) ∧ (b → nX.error = some msg)

theorem FailInv_mono (X : Nat) (msg : String) (b b' : Prop) (himp : b' → b)
    (g : Graph) (h : FailInv X msg b g) : FailInv X msg b' g := by
  obtain ⟨nX, h1, h2, h3, h4, h5⟩ := h
  exact ⟨nX, h1, h2, h3, h4, fun hb => h5 (himp hb)⟩

theorem evalNodePass_failX (o : CompileOracle) (X : Nat) (err : Bool × String)
    (hfail : ∀ src, o X src = some err) (g : Graph) (nid : Nat) (b : Prop)
    (hinv : FailInv X (throwMsg err) b g) :
    FailInv X (throwMsg err) (b ∨ nid = X) (evalNodePass o g nid).1 ∧
    ∀ p t, Ev.render X p t ∉ (evalNodePass o g nid).2 := by
  obtain ⟨nX, hfind, hkind, hcode, hgate, herr⟩ := hinv
  by_cases hX : nid = X
  · subst hX
    have hidX : nX.id = nid := by simpa using List.find?_some hfind
    have hfail' : ∀ src, o nX.id src = some err := by rw [hidX]; exact hfail
    obtain ⟨hst, hevnr⟩ := shaderEvaluate_failX o g nX err hcode hgate hfail'
    obtain ⟨ot, hrt⟩ := resolveTarget_eq g nX
    have hn2 : (shaderEvaluate o g nX).1
        = { nX with outputTexture := ot, error := some (throwMsg err) } := by
      rw [hst, hrt]
    constructor
    · simp only [evalNodePass, hfind, hkind]
      refine ⟨(shaderEvaluate o g nX).1, ?_, ?_, ?_, ?_, ?_⟩
      · exact findNode_updateNode g.nodes nX (shaderEvaluate o g nX).1 nid hfind
          (by rw [hn2])
      · rw [hn2]; exact hkind
      · rw [hn2]; exact hcode
      · rw [hn2]; exact hgate
      · intro _; rw [hn2]
    · intro p t hmem
      simp only [evalNodePass, hfind, hkind] at hmem
      rcases List.mem_cons.mp hmem with h | h
      · exact Ev.noConfusion h
      · exact hevnr nid p t h
  · have herr' : (b ∨ nid = X) → nX.error = some (throwMsg err) := fun hb =>
      match hb with
      | Or.inl h => herr h
      | Or.inr h => absurd h hX
    constructor
    · cases hfn : findNode g nid with
      | none =>
        simp only [evalNodePass, hfn]
        exact ⟨nX, hfind, hkind, hcode, hgate, herr'⟩
      | some n =>
        have hidn : n.id = nid := by simpa using List.find?_some hfn
        cases hk : n.kind with
        | textureBuffer =>
          simp only [evalNodePass, hfn, hk]
          exact ⟨nX, hfind, hkind, hcode, hgate, herr'⟩
        | shader =>
          simp only [evalNodePass, hfn, hk]
          have hne : (shaderEvaluate o g n).1.id ≠ X := by
            rw [(shaderEvaluate_skel o g n).1, hidn]
            exact hX
          have hsame : findNode (updateNode g (shaderEvaluate o g n).1) X
              = findNode g X := find?_map_update_ne g.nodes _ X hne
          exact ⟨nX, by rw [hsame]; exact hfind, hkind, hcode, hgate, herr'⟩
    · intro p t hmem
      have ht := evalNodePass_tags o g nid _ hmem
      exact hX (by simpa [evNode] using ht.symm)

theorem runPass_failX (o : CompileOracle) (X : Nat) (err : Bool × String)
    (hfail : ∀ src, o X src = some err) :
    ∀ (ids : List Nat) (g : Graph) (evs : List Ev) (b : Prop),
      FailInv X (throwMsg err) b g → (∀ p t, Ev.render X p t ∉ evs) →
      FailInv X (throwMsg err) (b ∨ X ∈ ids) (runPass o g evs ids).1 ∧
      ∀ p t, Ev.render X p t ∉ (runPass o g evs ids).2 := by
  intro ids
  induction ids with
  | nil =>
    intro g evs b hinv hevs
    refine ⟨?_, hevs⟩
    refine FailInv_mono X _ b _ ?_ g hinv
    rintro (hb | hmem)
    · exact hb
    · simp at hmem
  | cons m rest ih =>
    intro g evs b hinv hevs
    obtain ⟨hinv', hev'⟩ := evalNodePass_failX o X err hfail g m b hinv
    have hstep : runPass o g evs (m :: rest)
        = runPass o (evalNodePass o g m).1 (evs ++ (evalNodePass o g m).2) rest := by
      rw [runPass, List.foldl_cons]
      rfl
    rw [hstep]
    have hevs' : ∀ p t, Ev.render X p t ∉ evs ++ (evalNodePass o g m).2 := by
      intro p t hmem
      rcases List.mem_append.mp hmem with h | h
      · exact hevs p t h
      · exact hev' p t h
    obtain ⟨hfin, hfev⟩ := ih (evalNodePass o g m).1 (evs ++ (evalNodePass o g m).2)
      (b ∨ m = X) hinv' hevs'
    refine ⟨?_, hfev⟩
    refine FailInv_mono X _ _ _ ?_ _ hfin
    rintro (hb | hmem)
    · exact Or.inl (Or.inl hb)
    · rcases List.mem_cons.mp hmem with heq | hmem'
      · exact Or.inl (Or.inr heq.symm)
      · exact Or.inr hmem'

theorem runPass_evs_prefix (co : CompileOracle) :
    ∀ (ids : List Nat) (g : Graph) (evs : List Ev),
      ∃ rest, (runPass co g evs ids).2 = evs ++ rest := by
  intro ids
  induction ids with
  | nil => intro g evs; exact ⟨[], by simp [runPass]⟩
  | cons m rest ih =>
    intro g evs
    have hstep : runPass co g evs (m :: rest)
        = runPass co (evalNodePass co g m).1 (evs ++ (evalNodePass co g m).2) rest := by
      rw [runPass, List.foldl_cons]
      rfl
    obtain ⟨r, hr⟩ := ih (evalNodePass co g m).1 (evs ++ (evalNodePass co g m).2)
    exact ⟨(evalNodePass co g m).2 ++ r, by rw [hstep, hr, List.append_assoc]⟩

theorem runPass_process_mem (co : CompileOracle) (nid : Nat) (ids : List Nat)
    (g : Graph) (evs : List Ev) (h : nid ∈ ids) :
    Ev.process nid ∈ (runPass co g evs ids).2 := by
  have hc := runPass_process_count co nid ids g evs
  have h1 : 0 < ids.count nid := List.count_pos_iff.mpr h
  have h2 : 0 < (runPass co g evs ids).2.count (Ev.process nid) := by omega
  exact List.count_pos_iff.mp h2


/-- C3: a compilation failure in one Program Node never causes
`Graph.evaluate` to throw — the embedded evaluation still returns — the
thrown message is captured in that node's error state (whether or not a
previously-compiled program existed, as long as the recompile gate fires
so that compilation is attempted at all), rendering of that node is
skipped for the tick, and every other node is still evaluated
with its state and observable events unaffected (they coincide with a run
in which that node's compilation would have succeeded). -/
theorem graphEvaluate_compile_error_isolated
    (g : Graph) (X : Nat) (err : Bool × String) (o1 o2 : CompileOracle)
    (nX0 : GNode)
    (hfindX : findNode g X = some nX0)
    (hkindX : nX0.kind = NodeKind.shader)
    (hcodeX : nX0.code ≠ "")
    (hgateX : nX0.program = none ∨ nX0.lastCode ≠ some nX0.code)
    (hfail : ∀ src, o1 X src = some err)
    (hagr : ∀ m, m ≠ X → o1 m = o2 m) :
    ∃ g1 ev1 g2 ev2,
      graphEvaluate o1 g = some (g1, ev1) ∧
      graphEvaluate o2 g = some (g2, ev2) ∧
      (∀ nd ∈ g.nodes, Ev.process nd.id ∈ ev1) ∧
      (∀ p t, Ev.render X p t ∉ ev1) ∧
      (∃ nX, findNode g1 X = some nX ∧ nX.error = some (throwMsg err)) ∧
      (∀ m, m ≠ X → findNode g1 m = findNode g2 m) ∧
      (∀ m, m ≠ X → evsOf m ev1 = evsOf m ev2) := by
  rcases orderCore_spec (g.nodes.map (fun n => n.id)) g.edges with
    ⟨s, hs, ⟨hrv, hnd, _⟩, _, hcov⟩
  have hord : getEvaluationOrder g = some (s.result, s.cycles) := by
    simp [getEvaluationOrder, hs]
  have hmem_order : ∀ nd ∈ g.nodes, nd.id ∈ s.result := by
    intro nd hnd'
    exact (hrv nd.id).mpr (hcov nd.id (List.mem_map.mpr ⟨nd, hnd', rfl⟩))
  have hXnodes : nX0 ∈ g.nodes := List.mem_of_find?_eq_some hfindX
  have hXid : nX0.id = X := by simpa using List.find?_some hfindX
  have hXord : X ∈ s.result := by rw [← hXid]; exact hmem_order nX0 hXnodes
  have hinv0 : FailInv X (throwMsg err) False g :=
    ⟨nX0, hfindX, hkindX, hcodeX, hgateX, fun h => h.elim⟩
  obtain ⟨hinv1, hrend1⟩ := runPass_failX o1 X err hfail s.result g [] False hinv0
    (by intro p t h; simp at h)
  obtain ⟨hag1, hev1⟩ := runPass_congr X o1 o2 hagr s.result g g [] []
    (GAgree_refl X g) (by intro m _; rfl)
  have hproc1 : ∀ nd ∈ g.nodes, Ev.process nd.id ∈ (runPass o1 g [] s.result).2 :=
    fun nd hnd' => runPass_process_mem o1 nd.id s.result g [] (hmem_order nd hnd')
  have hP1 : (False ∨ X ∈ s.result) := Or.inr hXord
  by_cases hcy : s.cycles.isEmpty
  · refine ⟨(runPass o1 g [] s.result).1, (runPass o1 g [] s.result).2,
      (runPass o2 g [] s.result).1, (runPass o2 g [] s.result).2, ?_, ?_, hproc1,
      hrend1, ?_, ?_, hev1⟩
    · rw [graphEvaluate, hord]
      simp only [hcy, if_true]
    · rw [graphEvaluate, hord]
      simp only [hcy, if_true]
    · obtain ⟨nX, hf, _, _, _, herr⟩ := hinv1
      exact ⟨nX, hf, herr hP1⟩
    · intro m hm
      exact GAgree_findNode_ne X _ _ hag1 m hm
  · rcases cycleMembers_spec (g.nodes.map (fun n => n.id)) g.edges s.cycles
        (orderCore_cycles_cf g s hs) with ⟨members, hmem, _⟩
    obtain ⟨hinv2, hrend2⟩ := runPass_failX o1 X err hfail members
      (runPass o1 g [] s.result).1 (runPass o1 g [] s.result).2
      (False ∨ X ∈ s.result) hinv1 hrend1
    obtain ⟨hag2, hev2⟩ := runPass_congr X o1 o2 hagr members
      (runPass o1 g [] s.result).1 (runPass o2 g [] s.result).1
      (runPass o1 g [] s.result).2 (runPass o2 g [] s.result).2 hag1 hev1
    obtain ⟨restEv, hpre⟩ := runPass_evs_prefix o1 members
      (runPass o1 g [] s.result).1 (runPass o1 g [] s.result).2
    refine ⟨(runPass o1 (runPass o1 g [] s.result).1 (runPass o1 g [] s.result).2
        members).1,
      (runPass o1 (runPass o1 g [] s.result).1 (runPass o1 g [] s.result).2
        members).2,
      (runPass o2 (runPass o2 g [] s.result).1 (runPass o2 g [] s.result).2
        members).1,
      (runPass o2 (runPass o2 g [] s.result).1 (runPass o2 g [] s.result).2
        members).2, ?_, ?_, ?_, hrend2, ?_, ?_, hev2⟩
    · rw [graphEvaluate, hord]
      simp only [hcy, if_false, hmem, Bool.false_eq_true]
    · rw [graphEvaluate, hord]
      simp only [hcy, if_false, hmem, Bool.false_eq_true]
    · intro nd hnd'
      rw [hpre]
      exact List.mem_append_left _ (hproc1 nd hnd')
    · obtain ⟨nX, hf, _, _, _, herr⟩ := hinv2
      exact ⟨nX, hf, herr (Or.inl hP1)⟩
    · intro m hm
      exact GAgree_findNode_ne X _ _ hag2 m hm


/-- A two-shader graph for exercising the compile-failure isolation: node
2 is the failing Program Node — it holds a previously-compiled program
(handle 7) and an edited body, the recompile-after-edit case — node 1 an
unrelated one. -/
def c3NodeA : GNode := ⟨1, NodeKind.shader, "a", [], "codeA", none, none, 0, none, 0, none⟩

def c3NodeX : GNode :=
  ⟨2, NodeKind.shader, "x", [], "codeX", some "oldCode", some 7, 8, none, 0, none⟩

def c3Graph : Graph := { nodes := [c3NodeA, c3NodeX], edges := [] }

/-- An environment whose compiler rejects node 2's source and accepts
everything else. -/
def c3Fail : CompileOracle := fun nid _ => if nid == 2 then some (false, "boom") else none

/-- An environment whose compiler accepts everything. -/
def c3Ok : CompileOracle := fun _ _ => none

theorem graphEvaluate_compile_error_isolated_witness :
    findNode c3Graph 2 = some c3NodeX ∧ c3NodeX.code ≠ "" ∧
    (c3NodeX.program = none ∨ c3NodeX.lastCode ≠ some c3NodeX.code) ∧
    (∃ g1 ev1 g2 ev2,
      graphEvaluate c3Fail c3Graph = some (g1, ev1) ∧
      graphEvaluate c3Ok c3Graph = some (g2, ev2) ∧
      (∀ nd ∈ c3Graph.nodes, Ev.process nd.id ∈ ev1) ∧
      (∀ p t, Ev.render 2 p t ∉ ev1) ∧
      (∃ nX, findNode g1 2 = some nX ∧ nX.error = some (throwMsg (false, "boom"))) ∧
      (∀ m, m ≠ 2 → findNode g1 m = findNode g2 m) ∧
      (∀ m, m ≠ 2 → evsOf m ev1 = evsOf m ev2)) :=
  ⟨rfl, by decide, Or.inr (by decide),
    graphEvaluate_compile_error_isolated c3Graph 2 (false, "boom") c3Fail c3Ok c3NodeX
      rfl rfl (by decide) (Or.inr (by decide)) (fun _ => rfl)
      (by
        intro m hm
        funext src
        simp [c3Fail, c3Ok, hm])⟩

end ShaderPlayground
